import Mathlib

/-!
Verification of the `graphs-rs` graph/cycle engine.

The Rust sources (`src/cycle.rs`, `src/graph.rs`) are shallowly embedded:
a `BTreeMap<u32, BTreeSet<u32>>` becomes an association list sorted by key,
each `BTreeSet` an ascending duplicate-free list, and the recursive DFS of
`find_cycle` becomes a fuel-indexed structural recursion whose fuel is shown
sufficient for well-formed graphs.  The `while` loop of `simplify` likewise
runs on a fuel of one more than the node count, which is shown sufficient.
-/

set_option linter.unusedVariables false

namespace GraphsRs

/-- Insert a value into a `BTreeSet` represented as an ascending list,
keeping it duplicate-free (models `BTreeSet::insert`). -/
def setInsert : List Nat → Nat → List Nat
  | [], x => [x]
  | y :: ys, x =>
    if x < y then x :: y :: ys
    else if x = y then y :: ys
    else y :: setInsert ys x

/-- Remove a value from a `BTreeSet` represented as a list
(models `BTreeSet::remove`; removes the first occurrence). -/
def setRemove : List Nat → Nat → List Nat
  | [], _ => []
  | y :: ys, x => if y = x then ys else y :: setRemove ys x

/-- Look up a key in a `BTreeMap` represented as an association list
(models `BTreeMap::get`). -/
def mapLookup : List (Nat × List Nat) → Nat → Option (List Nat)
  | [], _ => none
  | (k, es) :: rest, x => if x = k then some es else mapLookup rest x

/-- Ensure a key is present, inserting an empty set if it is absent, in key
order (models `self.nodes.entry(id).or_insert_with(BTreeSet::new)`). -/
def mapWithNode : List (Nat × List Nat) → Nat → List (Nat × List Nat)
  | [], id => [(id, [])]
  | (k, es) :: rest, id =>
    if id < k then (id, []) :: (k, es) :: rest
    else if id = k then (k, es) :: rest
    else (k, es) :: mapWithNode rest id

/-- Add `t` to the edge set of `f`, creating the entry for `f` if needed
(models `self.with_node(from).insert(to)`). -/
def mapInsertEdge : List (Nat × List Nat) → Nat → Nat → List (Nat × List Nat)
  | [], f, t => [(f, [t])]
  | (k, es) :: rest, f, t =>
    if f < k then (f, [t]) :: (k, es) :: rest
    else if f = k then (k, setInsert es t) :: rest
    else (k, es) :: mapInsertEdge rest f t

/-- Remove the entry with the given key (models `BTreeMap::remove`). -/
def mapRemove : List (Nat × List Nat) → Nat → List (Nat × List Nat)
  | [], _ => []
  | (k, es) :: rest, b => if k = b then rest else (k, es) :: mapRemove rest b

/-- Remove `t` from the edge set of `f` when `f` exists (models
`Graph::disconnect`'s `get_mut` followed by `remove`). -/
def mapDisconnect : List (Nat × List Nat) → Nat → Nat → List (Nat × List Nat)
  | [], _, _ => []
  | (k, es) :: rest, f, t =>
    if k = f then (k, setRemove es t) :: rest else (k, es) :: mapDisconnect rest f t

/-- First index of a value in a list (models `Iterator::position`). -/
def posOf? : List Nat → Nat → Option Nat
  | [], _ => none
  | x :: xs, c => if x = c then some 0 else (posOf? xs c).map (· + 1)

/-- Right-rotation of a slice by `by_` places (models `Cycle::rotate`:
`cycle[..by] = tmp[len-by..]; cycle[by..] = tmp[..len-by]`). -/
def rotateRight (l : List Nat) (by_ : Nat) : List Nat :=
  l.drop (l.length - (by_ % l.length + l.length) % l.length) ++
    l.take (l.length - (by_ % l.length + l.length) % l.length)

/-- Index of the first minimal element, scanning with a running best
(models `iter().enumerate().min_by_key(|(_, n)| *n)`). -/
def argminAux : List Nat → Nat → Nat → Nat → Nat
  | [], _, bi, _ => bi
  | x :: xs, i, bi, bv =>
    if x < bv then argminAux xs (i + 1) i x else argminAux xs (i + 1) bi bv

/-- Index of the first minimal element of a list. -/
def argminIdx : List Nat → Nat
  | [] => 0
  | x :: xs => argminAux xs 1 0 x

/-- `rotateRight` is a list rotation. -/
theorem rotateRight_eq_rotate (l : List Nat) (b : Nat) :
    rotateRight l b = l.rotate (l.length - b % l.length) := by
  unfold rotateRight
  rcases Nat.eq_zero_or_pos l.length with h | h
  · simp [List.eq_nil_of_length_eq_zero h]
  · have hmod : (b % l.length + l.length) % l.length = b % l.length := by
      rw [Nat.add_mod_right]
      exact Nat.mod_mod_of_dvd _ dvd_rfl
    rw [hmod, List.rotate_eq_drop_append_take (Nat.sub_le _ _)]

theorem rotateRight_length (l : List Nat) (b : Nat) :
    (rotateRight l b).length = l.length := by
  rw [rotateRight_eq_rotate]; exact List.length_rotate l _

theorem rotateRight_nodup {l : List Nat} (h : l.Nodup) (b : Nat) :
    (rotateRight l b).Nodup := by
  rw [rotateRight_eq_rotate]; exact (List.nodup_rotate).mpr h

/-- A cycle: an ordered sequence of at least two distinct node ids, stored
in canonical rotation (models `struct Cycle(Vec<u32>)` together with the
invariants that `Cycle::new` establishes). -/
structure Cycle where
  val : List Nat
  nodup : val.Nodup
  two_le : 2 ≤ val.length

theorem Cycle.ext_val : ∀ {c d : Cycle}, c.val = d.val → c = d
  | ⟨_, _, _⟩, ⟨_, _, _⟩, rfl => rfl

instance : DecidableEq Cycle := fun c d =>
  decidable_of_iff (c.val = d.val) ⟨Cycle.ext_val, fun h => h ▸ rfl⟩

/-- Construct a cycle (models `Cycle::new`): fails on duplicates or length
below two; otherwise rotates so the minimal element comes first. -/
def Cycle.new (nodes : List Nat) : Option Cycle :=
  if h : nodes.Nodup ∧ 2 ≤ nodes.length then
    let min_pos := nodes.length - argminIdx nodes
    some ⟨rotateRight nodes min_pos, rotateRight_nodup h.1 _,
      le_trans h.2 (le_of_eq (rotateRight_length nodes min_pos).symm)⟩
  else none

/-- Length of a cycle (models `Cycle::len`). -/
def Cycle.len (c : Cycle) : Nat := c.val.length

/-- The directed graph: node id mapped to its set of outgoing edges
(models `struct Graph { nodes: BTreeMap<u32, BTreeSet<u32>> }`). -/
structure Graph where
  nodes : List (Nat × List Nat)
deriving DecidableEq

/-- The keys of the node mapping, in storage (ascending) order. -/
def keysOf (g : Graph) : List Nat := g.nodes.map (fun p => p.1)

/-- Connect two nodes (models `Graph::connect`): rejects self-loops, else
creates both endpoints as needed and inserts the edge. -/
def Graph.connect (g : Graph) (f t : Nat) : Bool × Graph :=
  if f = t then (false, g)
  else (true, ⟨mapInsertEdge (mapWithNode g.nodes t) f t⟩)

/-- Remove an edge if its source exists (models `Graph::disconnect`). -/
def Graph.disconnect (g : Graph) (f t : Nat) : Graph :=
  ⟨mapDisconnect g.nodes f t⟩

/-- All nodes with an edge pointing at `t`, in ascending order
(models `Graph::to`). -/
def Graph.toList (g : Graph) (t : Nat) : List Nat :=
  g.nodes.filterMap (fun p => if t ∈ p.2 then some p.1 else none)

/-- The outgoing set of `x`, defaulting to empty when `x` is absent (models
`self.nodes.get(x).unwrap()` at call sites that are unreachable for absent
keys). -/
def Graph.succsD (g : Graph) (x : Nat) : List Nat :=
  (mapLookup g.nodes x).getD []

/-- Remove every node with no outgoing and no incoming edges
(models `Graph::cleanup`: collect the isolated nodes, then remove them). -/
def Graph.cleanup (g : Graph) : Graph :=
  let toRemove := (g.nodes.filter
    (fun p => ((mapLookup g.nodes p.1).getD []).isEmpty && (g.toList p.1).isEmpty)).map
      (fun p => p.1)
  ⟨toRemove.foldl (fun m n => mapRemove m n) g.nodes⟩

/-- Induced subgraph over a node list followed by cleanup
(models `Graph::subgraph`). -/
def Graph.subgraph (g : Graph) (ns : List Nat) : Graph :=
  let sg := ns.foldl (fun acc node =>
    match mapLookup g.nodes node with
    | some connectedTo =>
      connectedTo.foldl
        (fun acc2 c => if c ∈ ns then (acc2.connect node c).2 else acc2) acc
    | none => acc) (⟨[]⟩ : Graph)
  sg.cleanup

/-- Whether the edge `f → t` is stored (the body of `Graph::check_cycle`'s
`all` closure: `get(from).map(|c| c.contains(to)).unwrap_or(false)`). -/
def Graph.edgeB (g : Graph) (f t : Nat) : Bool :=
  match mapLookup g.nodes f with
  | some es => decide (t ∈ es)
  | none => false

/-- The consecutive pairs of a sequence read cyclically (models
`slice.iter().chain(once(&slice[0])).tuple_windows()`). -/
def cyclicPairs (l : List Nat) : List (Nat × Nat) :=
  match l with
  | [] => []
  | x :: _ => l.zip (l.tail ++ [x])

/-- Check that every consecutive pair of the cycle, wrapping around, is an
edge (models `Graph::check_cycle`). -/
def Graph.checkCycle (g : Graph) (c : Cycle) : Bool :=
  (cyclicPairs c.val).all (fun p => g.edgeB p.1 p.2)

/-- Total weight of the stored mapping: one per entry plus the edge list
lengths.  Used to bound the depth of the embedded DFS. -/
def weight (g : Graph) : Nat :=
  (g.nodes.map (fun p => p.2.length + 1)).sum

/-- Fuel supplied to the embedded DFS; shown sufficient for well-formed
graphs. -/
def Graph.searchFuel (g : Graph) : Nat := 2 * weight g + 2

/-- The recursive subtree search of `Graph::find_cycle` (`search_subtree`):
`anc` is the ancestor stack, `v` the visited set, `l` the successors of the
stack top still to be scanned.  Fuel decreases on every call; it never runs
out for well-formed graphs given `searchFuel`. -/
def Graph.search (g : Graph) : Nat → List Nat → List Nat → List Nat → Option Cycle × List Nat
  | 0, _, v, _ => (none, v)
  | _ + 1, _, v, [] => (none, v)
  | fuel + 1, anc, v, c :: rest =>
    match posOf? anc c with
    | some i => (Cycle.new (anc.drop i), v)
    | none =>
      match g.search fuel (anc ++ [c]) (setInsert v c) (g.succsD c) with
      | (some cyc, v2) => (some cyc, v2)
      | (none, v2) => g.search fuel anc v2 rest

/-- The outer loop of `Graph::find_cycle` over the node keys: skip visited
roots, otherwise run a subtree search from the root. -/
def Graph.findCycleLoop (g : Graph) : List Nat → List Nat → Option Cycle
  | _, [] => none
  | v, k :: rest =>
    if k ∈ v then g.findCycleLoop v rest
    else
      match g.search g.searchFuel [k] (setInsert v k) (g.succsD k) with
      | (some c, _) => some c
      | (none, v') => g.findCycleLoop v' rest

/-- Find some cycle by depth-first search with ancestor tracking
(models `Graph::find_cycle`). -/
def Graph.findCycle (g : Graph) : Option Cycle :=
  g.findCycleLoop [] (keysOf g)

/-- Merge node `b` into node `a` (models `Graph::collapse_pair`). -/
def Graph.collapsePair (g : Graph) (a b : Nat) : Bool × Graph :=
  if a = b then (false, g)
  else
    match mapLookup g.nodes a, mapLookup g.nodes b with
    | some aEs, some bEs =>
      if b ∈ aEs ∨ a ∈ bEs then
        let g1 : Graph := ⟨mapRemove g.nodes b⟩
        let g2 := bEs.foldl (fun acc t => if t = a then acc else (acc.connect a t).2) g1
        let froms := g2.toList b
        let g3 := froms.foldl (fun acc f => ((acc.connect f a).2).disconnect f b) g2
        (true, g3)
      else (false, g)
    | _, _ => (false, g)

/-- Collapse a verified cycle into its first node
(models `Graph::collapse_cycle`). -/
def Graph.collapseCycle (g : Graph) (c : Cycle) : Bool × Graph :=
  if g.checkCycle c then
    match c.val with
    | [] => (true, g)
    | first :: rest =>
      (true, rest.foldl (fun acc node => (acc.collapsePair first node).2) g)
  else (false, g)

/-- The `while let Some(cycle) = self.find_cycle()` loop of
`Graph::simplify`, on fuel. -/
def Graph.simplifyLoop : Nat → Graph → Nat → Nat × Graph
  | 0, g, removed => (removed, g)
  | fuel + 1, g, removed =>
    match g.findCycle with
    | none => (removed, g)
    | some c => Graph.simplifyLoop fuel (g.collapseCycle c).2 (removed + c.val.length)

/-- Collapse cycles to a fixed point, then clean up; returns the total of
the collapsed cycle lengths (models `Graph::simplify`).  The fuel
`nodes.length + 1` is shown sufficient for well-formed graphs. -/
def Graph.simplify (g : Graph) : Nat × Graph :=
  let p := Graph.simplifyLoop (g.nodes.length + 1) g 0
  (p.1, p.2.cleanup)

/-- Consume and simplify (models `Graph::simplified`). -/
def Graph.simplified (g : Graph) : Graph := (g.simplify).2

/-- Sources (no predecessors) and sinks (empty outgoing set), each in
ascending order (models `Graph::find_ends`). -/
def Graph.findEnds (g : Graph) : List Nat × List Nat :=
  g.nodes.foldl (fun (acc : List Nat × List Nat) p =>
    let acc2 := if p.2.isEmpty then (acc.1, acc.2 ++ [p.1]) else acc
    if (g.toList p.1).isEmpty then (acc2.1 ++ [p.1], acc2.2) else acc2) ([], [])

/-- Chain all dangling ends of the simplified graph and return the induced
subgraph over them (models `Graph::needed_to_connect`). -/
def Graph.neededToConnect (g : Graph) : Graph :=
  let graph := g.simplified
  let se := graph.findEnds
  let toConnect := se.2 ++ se.1
  let graph2 := (toConnect.zip toConnect.tail).foldl
    (fun acc p => (acc.connect p.1 p.2).2) graph
  graph2.subgraph toConnect

/-- Ghost instrumentation of `Graph.simplifyLoop` recording the collapsed
cycles instead of accumulating their lengths. -/
def Graph.simplifyLoopCycles : Nat → Graph → List Cycle
  | 0, _ => []
  | fuel + 1, g =>
    match g.findCycle with
    | none => []
    | some c => c :: Graph.simplifyLoopCycles fuel (g.collapseCycle c).2

/-- Ghost instrumentation of `Graph.collapseCycle` that conjoins the boolean
results of all inner `collapse_pair` calls (the original discards them). -/
def Graph.collapseCyclePairsOk (g : Graph) (c : Cycle) : Bool :=
  if g.checkCycle c then
    match c.val with
    | [] => true
    | first :: rest =>
      (rest.foldl
        (fun (acc : Bool × Graph) node =>
          let r := acc.2.collapsePair first node
          (acc.1 && r.1, r.2)) (true, g)).1
  else false

/-- Keys are stored strictly ascending (the `BTreeMap` ordering). -/
def KeysSorted (g : Graph) : Prop := List.Pairwise (· < ·) (keysOf g)

/-- No stored edge is a self-loop. -/
def NoSelfLoops (g : Graph) : Prop := ∀ p ∈ g.nodes, p.1 ∉ p.2

/-- Every id appearing in an edge set has its own entry in the mapping. -/
def Closed (g : Graph) : Prop := ∀ p ∈ g.nodes, ∀ t ∈ p.2, t ∈ keysOf g

/-- Each stored edge set is strictly ascending (the `BTreeSet` ordering). -/
def EdgesSorted (g : Graph) : Prop := ∀ p ∈ g.nodes, List.Pairwise (· < ·) p.2

/-- Well-formedness of a graph value: the representation invariants that
every graph built through the public operations maintains. -/
structure WF (g : Graph) : Prop where
  sorted : KeysSorted g
  edges : EdgesSorted g
  noSelf : NoSelfLoops g
  closed : Closed g

instance (g : Graph) : Decidable (KeysSorted g) := by
  unfold KeysSorted; infer_instance

instance (g : Graph) : Decidable (EdgesSorted g) := by
  unfold EdgesSorted; infer_instance

instance (g : Graph) : Decidable (NoSelfLoops g) := by
  unfold NoSelfLoops; infer_instance

instance (g : Graph) : Decidable (Closed g) := by
  unfold Closed; infer_instance

instance (g : Graph) : Decidable (WF g) :=
  decidable_of_iff (KeysSorted g ∧ EdgesSorted g ∧ NoSelfLoops g ∧ Closed g)
    ⟨fun h => ⟨h.1, h.2.1, h.2.2.1, h.2.2.2⟩,
     fun h => ⟨h.sorted, h.edges, h.noSelf, h.closed⟩⟩

/-- Graphs reachable from the empty mapping through the public mutating and
producing operations. -/
inductive Reachable : Graph → Prop where
  | empty : Reachable ⟨[]⟩
  | connect (g : Graph) (a b : Nat) : Reachable g → Reachable (g.connect a b).2
  | disconnect (g : Graph) (a b : Nat) : Reachable g → Reachable (g.disconnect a b)
  | cleanup (g : Graph) : Reachable g → Reachable g.cleanup
  | subgraph (g : Graph) (ns : List Nat) : Reachable g → Reachable (g.subgraph ns)
  | collapsePair (g : Graph) (a b : Nat) : Reachable g → Reachable (g.collapsePair a b).2
  | collapseCycle (g : Graph) (c : Cycle) : Reachable g → Reachable (g.collapseCycle c).2
  | simplify (g : Graph) : Reachable g → Reachable (g.simplify).2
  | neededToConnect (g : Graph) : Reachable g → Reachable g.neededToConnect

/-- An edge of the graph, as a proposition. -/
def Edge (g : Graph) (a b : Nat) : Prop := b ∈ g.succsD a

instance (g : Graph) (a b : Nat) : Decidable (Edge g a b) := by
  unfold Edge; infer_instance

/-- Some nonempty closed walk passes through `a`. -/
def HasCycleThrough (g : Graph) (a : Nat) : Prop :=
  ∃ p : List Nat, p ≠ [] ∧ List.Chain (Edge g) a p ∧ p.getLast? = some a

/-! ### Basic facts about the set primitives -/

theorem mem_setInsert {l : List Nat} {x y : Nat} :
    x ∈ setInsert l y ↔ x = y ∨ x ∈ l := by
  induction l with
  | nil => simp [setInsert]
  | cons z zs ih =>
    simp only [setInsert]
    split_ifs with h1 h2
    · simp only [List.mem_cons]
    · subst h2; simp only [List.mem_cons]; tauto
    · simp only [List.mem_cons, ih]; tauto

theorem setInsert_sorted {l : List Nat} (h : List.Pairwise (· < ·) l) (x : Nat) :
    List.Pairwise (· < ·) (setInsert l x) := by
  induction l with
  | nil => simp [setInsert]
  | cons z zs ih =>
    rcases List.pairwise_cons.mp h with ⟨hz, hzs⟩
    simp only [setInsert]
    split_ifs with h1 h2
    · refine List.pairwise_cons.mpr ⟨?_, h⟩
      intro b hb
      rcases List.mem_cons.mp hb with rfl | hb
      · exact h1
      · exact lt_trans h1 (hz b hb)
    · exact h
    · have hx : z < x := by omega
      refine List.pairwise_cons.mpr ⟨?_, ih hzs⟩
      intro b hb
      rcases mem_setInsert.mp hb with rfl | hb
      · exact hx
      · exact hz b hb

theorem setRemove_sublist (l : List Nat) (x : Nat) : (setRemove l x).Sublist l := by
  induction l with
  | nil => simp [setRemove]
  | cons z zs ih =>
    by_cases h : z = x
    · rw [setRemove, if_pos h]; exact List.sublist_cons_self z zs
    · rw [setRemove, if_neg h]; exact List.Sublist.cons₂ z ih

theorem mem_of_mem_setRemove {l : List Nat} {x y : Nat} (h : y ∈ setRemove l x) :
    y ∈ l := (setRemove_sublist l x).mem h

theorem setRemove_sorted {l : List Nat} (h : List.Pairwise (· < ·) l) (x : Nat) :
    List.Pairwise (· < ·) (setRemove l x) :=
  h.sublist (setRemove_sublist l x)

theorem mem_setRemove {l : List Nat} (hl : List.Pairwise (· < ·) l) {x y : Nat} :
    y ∈ setRemove l x ↔ y ∈ l ∧ y ≠ x := by
  induction l with
  | nil => simp [setRemove]
  | cons z zs ih =>
    rcases List.pairwise_cons.mp hl with ⟨hz, hzs⟩
    by_cases h : z = x
    · subst h
      simp only [setRemove, if_pos rfl]
      constructor
      · intro hy
        exact ⟨List.mem_cons_of_mem _ hy, fun hyx => absurd (hz y hy) (by omega)⟩
      · rintro ⟨hy, hyx⟩
        rcases List.mem_cons.mp hy with rfl | hy
        · exact absurd rfl hyx
        · exact hy
    · simp only [setRemove, if_neg h, List.mem_cons, ih hzs]
      constructor
      · rintro (rfl | ⟨hy, hyx⟩)
        · exact ⟨Or.inl rfl, fun hzx => h hzx⟩
        · exact ⟨Or.inr hy, hyx⟩
      · rintro ⟨rfl | hy, hyx⟩
        · exact Or.inl rfl
        · exact Or.inr ⟨hy, hyx⟩

/-! ### Basic facts about `posOf?` -/

theorem posOf?_eq_none {l : List Nat} {c : Nat} : posOf? l c = none ↔ c ∉ l := by
  induction l with
  | nil => simp [posOf?]
  | cons x xs ih =>
    by_cases h : x = c
    · simp [posOf?, h]
    · simp only [posOf?, if_neg h, Option.map_eq_none', ih, List.mem_cons]
      constructor
      · intro hc hmem
        rcases hmem with rfl | hmem
        · exact h rfl
        · exact hc hmem
      · intro hc hmem
        exact hc (Or.inr hmem)

theorem posOf?_some {l : List Nat} {c : Nat} {i : Nat} (h : posOf? l c = some i) :
    l.get? i = some c := by
  induction l generalizing i with
  | nil => simp [posOf?] at h
  | cons x xs ih =>
    by_cases hx : x = c
    · simp only [posOf?, if_pos hx] at h
      cases h; simpa using hx
    · simp only [posOf?, if_neg hx, Option.map_eq_some'] at h
      rcases h with ⟨j, hj, rfl⟩
      simpa using ih hj

theorem posOf?_lt_length {l : List Nat} {c : Nat} {i : Nat} (h : posOf? l c = some i) :
    i < l.length :=
  List.get?_eq_some.mp (posOf?_some h) |>.1

/-! ### Basic facts about `mapLookup` and friends -/

theorem mapLookup_eq_none {m : List (Nat × List Nat)} {x : Nat} :
    mapLookup m x = none ↔ x ∉ m.map (fun p => p.1) := by
  induction m with
  | nil => simp [mapLookup]
  | cons p rest ih =>
    obtain ⟨k, es⟩ := p
    by_cases h : x = k
    · simp [mapLookup, h]
    · simp [mapLookup, h, ih]

theorem mapLookup_isSome {m : List (Nat × List Nat)} {x : Nat} :
    (mapLookup m x).isSome ↔ x ∈ m.map (fun p => p.1) := by
  rcases h : mapLookup m x with _ | es
  · simpa [h] using mapLookup_eq_none.mp h
  · simp only [h, Option.isSome_some, true_iff]
    by_contra hx
    rw [mapLookup_eq_none.mpr hx] at h
    cases h

theorem mapLookup_mem {m : List (Nat × List Nat)} {x : Nat} {es : List Nat}
    (h : mapLookup m x = some es) : (x, es) ∈ m := by
  induction m with
  | nil => simp [mapLookup] at h
  | cons p rest ih =>
    obtain ⟨k, es'⟩ := p
    by_cases hx : x = k
    · subst hx
      simp only [mapLookup, if_pos rfl] at h
      cases h; exact List.mem_cons_self _ _
    · simp only [mapLookup, if_neg hx] at h
      exact List.mem_cons_of_mem _ (ih h)

theorem mapLookup_of_mem {m : List (Nat × List Nat)}
    (hm : List.Pairwise (· < ·) (m.map (fun p => p.1))) {x : Nat} {es : List Nat}
    (h : (x, es) ∈ m) : mapLookup m x = some es := by
  induction m with
  | nil => simp at h
  | cons p rest ih =>
    obtain ⟨k, es'⟩ := p
    rcases List.mem_cons.mp h with h1 | h1
    · cases h1; simp [mapLookup]
    · have hk : k < x := by
        have := (List.pairwise_cons.mp hm).1 x
        exact this (by simpa using List.mem_map_of_mem (fun p => p.1) h1)
      have hx : x ≠ k := by omega
      simp only [mapLookup, if_neg hx]
      exact ih (List.pairwise_cons.mp hm).2 h1

/-! ### Facts about `mapWithNode` -/

theorem keys_mapWithNode (m : List (Nat × List Nat)) (id x : Nat) :
    x ∈ (mapWithNode m id).map (fun p => p.1) ↔
      x = id ∨ x ∈ m.map (fun p => p.1) := by
  induction m with
  | nil => simp [mapWithNode]
  | cons p rest ih =>
    obtain ⟨k, es⟩ := p
    by_cases h1 : id < k
    · rw [mapWithNode, if_pos h1]
      simp only [List.map_cons, List.mem_cons]
    · by_cases h2 : id = k
      · rw [mapWithNode, if_neg h1, if_pos h2]
        subst h2
        simp only [List.map_cons, List.mem_cons]
        tauto
      · rw [mapWithNode, if_neg h1, if_neg h2]
        simp only [List.map_cons, List.mem_cons, ih]
        tauto

theorem mapWithNode_of_mem {m : List (Nat × List Nat)}
    (hm : List.Pairwise (· < ·) (m.map (fun p => p.1))) {id : Nat}
    (h : id ∈ m.map (fun p => p.1)) : mapWithNode m id = m := by
  induction m with
  | nil => simp at h
  | cons p rest ih =>
    obtain ⟨k, es⟩ := p
    rw [List.map_cons, List.mem_cons] at h
    rcases h with rfl | h1
    · simp [mapWithNode]
    · have hk : k < id := (List.pairwise_cons.mp hm).1 id h1
      have h2 : ¬id < k := by omega
      have h3 : ¬id = k := by omega
      rw [mapWithNode, if_neg h2, if_neg h3, ih (List.pairwise_cons.mp hm).2 h1]

theorem mapLookup_mapWithNode {m : List (Nat × List Nat)}
    (hm : List.Pairwise (· < ·) (m.map (fun p => p.1))) (id x : Nat) :
    mapLookup (mapWithNode m id) x =
      if x = id then some ((mapLookup m id).getD []) else mapLookup m x := by
  induction m with
  | nil => by_cases h : x = id <;> simp [mapWithNode, mapLookup, h]
  | cons p rest ih =>
    obtain ⟨k, es⟩ := p
    simp only [List.map_cons] at hm
    have ih' := ih (List.pairwise_cons.mp hm).2
    have hrest_none : id < k → mapLookup rest id = none := by
      intro hik
      apply mapLookup_eq_none.mpr
      intro hmem
      have := (List.pairwise_cons.mp hm).1 id hmem
      omega
    by_cases h1 : id < k
    · rw [mapWithNode, if_pos h1]
      by_cases hx : x = id
      · subst hx
        have hxk : ¬x = k := by omega
        simp only [mapLookup, if_pos rfl, if_neg hxk, hrest_none h1]
        rfl
      · simp only [mapLookup, if_neg hx]
    · by_cases h2 : id = k
      · rw [mapWithNode, if_neg h1, if_pos h2]
        subst h2
        by_cases hx : x = id
        · subst hx
          simp only [mapLookup, if_pos rfl]
          rfl
        · simp only [mapLookup, if_neg hx]
      · rw [mapWithNode, if_neg h1, if_neg h2]
        by_cases hx : x = k
        · subst hx
          have hxi : ¬x = id := by omega
          simp [mapLookup, hxi]
        · simp only [mapLookup, if_neg hx, if_neg h2, ih']

theorem mapWithNode_sorted {m : List (Nat × List Nat)}
    (hm : List.Pairwise (· < ·) (m.map (fun p => p.1))) (id : Nat) :
    List.Pairwise (· < ·) ((mapWithNode m id).map (fun p => p.1)) := by
  induction m with
  | nil => simp [mapWithNode]
  | cons p rest ih =>
    obtain ⟨k, es⟩ := p
    simp only [List.map_cons] at hm
    rcases List.pairwise_cons.mp hm with ⟨hk, hrest⟩
    by_cases h1 : id < k
    · rw [mapWithNode, if_pos h1, List.map_cons, List.map_cons]
      refine List.pairwise_cons.mpr ⟨?_, hm⟩
      intro b hb
      rcases List.mem_cons.mp hb with rfl | hb
      · exact h1
      · exact lt_trans h1 (hk b hb)
    · by_cases h2 : id = k
      · rw [mapWithNode, if_neg h1, if_pos h2, List.map_cons]
        exact hm
      · have hx : k < id := by omega
        rw [mapWithNode, if_neg h1, if_neg h2, List.map_cons]
        refine List.pairwise_cons.mpr ⟨?_, ih hrest⟩
        intro b hb
        rcases (keys_mapWithNode rest id b).mp hb with rfl | hb
        · exact hx
        · exact hk b hb

theorem mapWithNode_entry {m : List (Nat × List Nat)} {id : Nat} {p : Nat × List Nat}
    (h : p ∈ mapWithNode m id) : p ∈ m ∨ p = (id, []) := by
  induction m with
  | nil => simpa [mapWithNode] using h
  | cons q rest ih =>
    obtain ⟨k, es⟩ := q
    simp only [mapWithNode] at h
    split_ifs at h with h1 h2
    · rcases List.mem_cons.mp h with rfl | h3
      · exact Or.inr rfl
      · exact Or.inl h3
    · exact Or.inl h
    · rcases List.mem_cons.mp h with rfl | h3
      · exact Or.inl (List.mem_cons_self _ _)
      · rcases ih h3 with h4 | h4
        · exact Or.inl (List.mem_cons_of_mem _ h4)
        · exact Or.inr h4

/-! ### Facts about `mapInsertEdge` -/

theorem keys_mapInsertEdge (m : List (Nat × List Nat)) (f t x : Nat) :
    x ∈ (mapInsertEdge m f t).map (fun p => p.1) ↔
      x = f ∨ x ∈ m.map (fun p => p.1) := by
  induction m with
  | nil => simp [mapInsertEdge]
  | cons p rest ih =>
    obtain ⟨k, es⟩ := p
    by_cases h1 : f < k
    · rw [mapInsertEdge, if_pos h1]
      simp only [List.map_cons, List.mem_cons]
    · by_cases h2 : f = k
      · rw [mapInsertEdge, if_neg h1, if_pos h2]
        subst h2
        simp only [List.map_cons, List.mem_cons]
        tauto
      · rw [mapInsertEdge, if_neg h1, if_neg h2]
        simp only [List.map_cons, List.mem_cons, ih]
        tauto

theorem keysList_mapInsertEdge_of_mem {m : List (Nat × List Nat)}
    (hm : List.Pairwise (· < ·) (m.map (fun p => p.1))) {f : Nat}
    (h : f ∈ m.map (fun p => p.1)) (t : Nat) :
    (mapInsertEdge m f t).map (fun p => p.1) = m.map (fun p => p.1) := by
  induction m with
  | nil => simp at h
  | cons p rest ih =>
    obtain ⟨k, es⟩ := p
    simp only [List.map_cons] at hm h ⊢
    rcases List.mem_cons.mp h with rfl | h1
    · simp [mapInsertEdge]
    · have hk : k < f := (List.pairwise_cons.mp hm).1 f h1
      have h2 : ¬f < k := by omega
      have h3 : ¬f = k := by omega
      rw [mapInsertEdge, if_neg h2, if_neg h3, List.map_cons,
        ih (List.pairwise_cons.mp hm).2 h1]

theorem mapLookup_mapInsertEdge {m : List (Nat × List Nat)}
    (hm : List.Pairwise (· < ·) (m.map (fun p => p.1))) (f t x : Nat) :
    mapLookup (mapInsertEdge m f t) x =
      if x = f then some (setInsert ((mapLookup m f).getD []) t)
      else mapLookup m x := by
  induction m with
  | nil => by_cases h : x = f <;> simp [mapInsertEdge, mapLookup, h, setInsert]
  | cons p rest ih =>
    obtain ⟨k, es⟩ := p
    simp only [List.map_cons] at hm
    have ih' := ih (List.pairwise_cons.mp hm).2
    have hrest_none : f < k → mapLookup rest f = none := by
      intro hik
      apply mapLookup_eq_none.mpr
      intro hmem
      have := (List.pairwise_cons.mp hm).1 f hmem
      omega
    by_cases h1 : f < k
    · rw [mapInsertEdge, if_pos h1]
      by_cases hx : x = f
      · subst hx
        have hxk : ¬x = k := by omega
        simp only [mapLookup, if_pos rfl, if_neg hxk, hrest_none h1]
        rfl
      · simp only [mapLookup, if_neg hx]
    · by_cases h2 : f = k
      · rw [mapInsertEdge, if_neg h1, if_pos h2]
        subst h2
        by_cases hx : x = f
        · subst hx
          simp only [mapLookup, if_pos rfl]
          rfl
        · simp only [mapLookup, if_neg hx]
      · rw [mapInsertEdge, if_neg h1, if_neg h2]
        by_cases hx : x = k
        · subst hx
          have hxf : ¬x = f := by omega
          simp [mapLookup, hxf]
        · simp only [mapLookup, if_neg hx, if_neg h2, ih']

theorem mapInsertEdge_sorted {m : List (Nat × List Nat)}
    (hm : List.Pairwise (· < ·) (m.map (fun p => p.1))) (f t : Nat) :
    List.Pairwise (· < ·) ((mapInsertEdge m f t).map (fun p => p.1)) := by
  induction m with
  | nil => simp [mapInsertEdge]
  | cons p rest ih =>
    obtain ⟨k, es⟩ := p
    simp only [List.map_cons] at hm
    rcases List.pairwise_cons.mp hm with ⟨hk, hrest⟩
    by_cases h1 : f < k
    · rw [mapInsertEdge, if_pos h1, List.map_cons, List.map_cons]
      refine List.pairwise_cons.mpr ⟨?_, hm⟩
      intro b hb
      rcases List.mem_cons.mp hb with rfl | hb
      · exact h1
      · exact lt_trans h1 (hk b hb)
    · by_cases h2 : f = k
      · rw [mapInsertEdge, if_neg h1, if_pos h2, List.map_cons]
        exact List.pairwise_cons.mpr ⟨hk, hrest⟩
      · have hx : k < f := by omega
        rw [mapInsertEdge, if_neg h1, if_neg h2, List.map_cons]
        refine List.pairwise_cons.mpr ⟨?_, ih hrest⟩
        intro b hb
        rcases (keys_mapInsertEdge rest f t b).mp hb with rfl | hb
        · exact hx
        · exact hk b hb

theorem mapInsertEdge_entry {m : List (Nat × List Nat)} {f t : Nat} {p : Nat × List Nat}
    (h : p ∈ mapInsertEdge m f t) :
    p ∈ m ∨ p = (f, [t]) ∨ ∃ es, (f, es) ∈ m ∧ p = (f, setInsert es t) := by
  induction m with
  | nil => simpa [mapInsertEdge] using h
  | cons q rest ih =>
    obtain ⟨k, es⟩ := q
    simp only [mapInsertEdge] at h
    split_ifs at h with h1 h2
    · rcases List.mem_cons.mp h with rfl | h3
      · exact Or.inr (Or.inl rfl)
      · exact Or.inl h3
    · subst h2
      rcases List.mem_cons.mp h with rfl | h3
      · exact Or.inr (Or.inr ⟨es, List.mem_cons_self _ _, rfl⟩)
      · exact Or.inl (List.mem_cons_of_mem _ h3)
    · rcases List.mem_cons.mp h with rfl | h3
      · exact Or.inl (List.mem_cons_self _ _)
      · rcases ih h3 with h4 | h4 | ⟨es', h5, h6⟩
        · exact Or.inl (List.mem_cons_of_mem _ h4)
        · exact Or.inr (Or.inl h4)
        · exact Or.inr (Or.inr ⟨es', List.mem_cons_of_mem _ h5, h6⟩)

/-! ### Facts about `mapRemove` and `mapDisconnect` -/

theorem mapRemove_sublist (m : List (Nat × List Nat)) (b : Nat) :
    (mapRemove m b).Sublist m := by
  induction m with
  | nil => simp [mapRemove]
  | cons p rest ih =>
    obtain ⟨k, es⟩ := p
    by_cases h : k = b
    · rw [mapRemove, if_pos h]; exact List.sublist_cons_self _ rest
    · rw [mapRemove, if_neg h]; exact List.Sublist.cons₂ _ ih

theorem keys_mapRemove (m : List (Nat × List Nat)) (b : Nat) :
    (mapRemove m b).map (fun p => p.1) = (m.map (fun p => p.1)).erase b := by
  induction m with
  | nil => simp [mapRemove]
  | cons p rest ih =>
    obtain ⟨k, es⟩ := p
    by_cases h : k = b
    · subst h; simp [mapRemove, List.erase_cons_head]
    · simp only [mapRemove, if_neg h, List.map_cons, ih]
      rw [List.erase_cons_tail]
      simp [h]

theorem mapLookup_mapRemove {m : List (Nat × List Nat)}
    (hm : List.Pairwise (· < ·) (m.map (fun p => p.1))) (b x : Nat) :
    mapLookup (mapRemove m b) x = if x = b then none else mapLookup m x := by
  induction m with
  | nil => simp [mapRemove, mapLookup]
  | cons p rest ih =>
    obtain ⟨k, es⟩ := p
    simp only [List.map_cons] at hm
    have ih' := ih (List.pairwise_cons.mp hm).2
    by_cases h : k = b
    · subst h
      rw [mapRemove, if_pos rfl]
      by_cases hx : x = k
      · subst hx
        rw [if_pos rfl, mapLookup_eq_none.mpr]
        intro hmem
        have := (List.pairwise_cons.mp hm).1 x hmem
        omega
      · simp [mapLookup, hx]
    · rw [mapRemove, if_neg h]
      by_cases hx : x = k
      · subst hx
        have hxb : ¬x = b := fun hc => h hc
        simp [mapLookup, hxb]
      · simp only [mapLookup, if_neg hx, ih']

theorem mapRemove_sorted {m : List (Nat × List Nat)}
    (hm : List.Pairwise (· < ·) (m.map (fun p => p.1))) (b : Nat) :
    List.Pairwise (· < ·) ((mapRemove m b).map (fun p => p.1)) := by
  rw [keys_mapRemove]
  exact hm.sublist (List.erase_sublist _ _)

theorem keys_mapDisconnect (m : List (Nat × List Nat)) (f t : Nat) :
    (mapDisconnect m f t).map (fun p => p.1) = m.map (fun p => p.1) := by
  induction m with
  | nil => simp [mapDisconnect]
  | cons p rest ih =>
    obtain ⟨k, es⟩ := p
    by_cases h : k = f
    · simp [mapDisconnect, h]
    · simp [mapDisconnect, h, ih]

theorem mapLookup_mapDisconnect {m : List (Nat × List Nat)}
    (hm : List.Pairwise (· < ·) (m.map (fun p => p.1))) (f t x : Nat) :
    mapLookup (mapDisconnect m f t) x =
      if x = f then (mapLookup m f).map (fun es => setRemove es t)
      else mapLookup m x := by
  induction m with
  | nil => simp [mapDisconnect, mapLookup]
  | cons p rest ih =>
    obtain ⟨k, es⟩ := p
    simp only [List.map_cons] at hm
    have ih' := ih (List.pairwise_cons.mp hm).2
    have hfk : ¬k = f → ¬f = k := fun h1 h2 => h1 h2.symm
    by_cases h : k = f
    · subst h
      rw [mapDisconnect, if_pos rfl]
      by_cases hx : x = k
      · subst hx; simp [mapLookup]
      · simp [mapLookup, hx]
    · rw [mapDisconnect, if_neg h]
      by_cases hx : x = k
      · subst hx
        have hxf : ¬x = f := h
        simp [mapLookup, hxf]
      · simp only [mapLookup, if_neg hx, if_neg (hfk h), ih']

theorem mapDisconnect_entry {m : List (Nat × List Nat)} {f t : Nat} {p : Nat × List Nat}
    (h : p ∈ mapDisconnect m f t) :
    p ∈ m ∨ ∃ es, (f, es) ∈ m ∧ p = (f, setRemove es t) := by
  induction m with
  | nil => simp [mapDisconnect] at h
  | cons q rest ih =>
    obtain ⟨k, es⟩ := q
    by_cases hk : k = f
    · subst hk
      rw [mapDisconnect, if_pos rfl] at h
      rcases List.mem_cons.mp h with rfl | h3
      · exact Or.inr ⟨es, List.mem_cons_self _ _, rfl⟩
      · exact Or.inl (List.mem_cons_of_mem _ h3)
    · rw [mapDisconnect, if_neg hk] at h
      rcases List.mem_cons.mp h with rfl | h3
      · exact Or.inl (List.mem_cons_self _ _)
      · rcases ih h3 with h4 | ⟨es', h5, h6⟩
        · exact Or.inl (List.mem_cons_of_mem _ h4)
        · exact Or.inr ⟨es', List.mem_cons_of_mem _ h5, h6⟩

/-! ### Graph-level characterizations -/

theorem edgeB_iff_Edge (g : Graph) (f t : Nat) : g.edgeB f t = true ↔ Edge g f t := by
  unfold Graph.edgeB Edge Graph.succsD
  rcases h : mapLookup g.nodes f with _ | es <;> simp [h]

theorem Edge.mem_keys {g : Graph} {x y : Nat} (h : Edge g x y) : x ∈ keysOf g := by
  unfold Edge Graph.succsD at h
  rcases hl : mapLookup g.nodes x with _ | es
  · rw [hl] at h; cases h
  · exact mapLookup_isSome.mp (by simp [hl])

theorem Edge.mem_keys_right {g : Graph} (hc : Closed g) {x y : Nat}
    (h : Edge g x y) : y ∈ keysOf g := by
  unfold Edge Graph.succsD at h
  rcases hl : mapLookup g.nodes x with _ | es
  · rw [hl] at h; cases h
  · exact hc _ (mapLookup_mem hl) y (by rwa [hl] at h)

theorem succsD_eq_of_mem {g : Graph} (hs : KeysSorted g) {x : Nat} {es : List Nat}
    (h : (x, es) ∈ g.nodes) : g.succsD x = es := by
  unfold Graph.succsD
  rw [mapLookup_of_mem hs h]
  rfl

theorem noSelf_edge {g : Graph} (hn : NoSelfLoops g) (x : Nat) : ¬Edge g x x := by
  intro h
  unfold Edge Graph.succsD at h
  rcases hl : mapLookup g.nodes x with _ | es
  · rw [hl] at h; cases h
  · exact hn _ (mapLookup_mem hl) (by rwa [hl] at h)

theorem mem_toList {g : Graph} {x t : Nat} :
    x ∈ g.toList t ↔ ∃ es, (x, es) ∈ g.nodes ∧ t ∈ es := by
  unfold Graph.toList
  rw [List.mem_filterMap]
  constructor
  · rintro ⟨p, hp, hx⟩
    by_cases h : t ∈ p.2
    · rw [if_pos h] at hx
      cases hx
      exact ⟨p.2, hp, h⟩
    · rw [if_neg h] at hx; cases hx
  · rintro ⟨es, hmem, ht⟩
    exact ⟨(x, es), hmem, by rw [if_pos ht]⟩

theorem mem_toList_iff_edge {g : Graph} (hs : KeysSorted g) {x t : Nat} :
    x ∈ g.toList t ↔ Edge g x t := by
  rw [mem_toList]
  constructor
  · rintro ⟨es, hmem, ht⟩
    unfold Edge Graph.succsD
    rw [mapLookup_of_mem hs hmem]
    exact ht
  · intro h
    unfold Edge Graph.succsD at h
    rcases hl : mapLookup g.nodes x with _ | es
    · rw [hl] at h; cases h
    · exact ⟨es, mapLookup_mem hl, by rwa [hl] at h⟩

theorem toList_eq_nil_iff {g : Graph} (hs : KeysSorted g) {t : Nat} :
    g.toList t = [] ↔ ∀ x, ¬Edge g x t := by
  constructor
  · intro h x hx
    have := (mem_toList_iff_edge hs).mpr hx
    rw [h] at this
    cases this
  · intro h
    rcases he : g.toList t with _ | ⟨x, rest⟩
    · rfl
    · exact absurd ((mem_toList_iff_edge hs).mp (he ▸ List.mem_cons_self x rest)) (h x)

/-! ### Effects of `connect` and `disconnect` -/

theorem connect_self (g : Graph) (a : Nat) : g.connect a a = (false, g) := by
  simp [Graph.connect]

theorem connect_false_iff (g : Graph) (f t : Nat) :
    (g.connect f t).1 = false ↔ f = t := by
  unfold Graph.connect
  by_cases h : f = t <;> simp [h]

theorem connect_false_eq {g : Graph} {f t : Nat}
    (h : (g.connect f t).1 = false) : (g.connect f t).2 = g := by
  rw [connect_false_iff] at h
  simp [Graph.connect, h]

theorem succsD_connect {g : Graph} (hs : KeysSorted g) {f t : Nat} (hft : f ≠ t)
    (x : Nat) :
    ((g.connect f t).2).succsD x =
      if x = f then setInsert (g.succsD f) t else g.succsD x := by
  unfold Graph.connect
  rw [if_neg hft]
  show (mapLookup (mapInsertEdge (mapWithNode g.nodes t) f t) x).getD [] = _
  rw [mapLookup_mapInsertEdge (mapWithNode_sorted hs t),
    mapLookup_mapWithNode hs t f, mapLookup_mapWithNode hs t x, if_neg hft]
  by_cases hx : x = f
  · simp [hx, Graph.succsD]
  · rw [if_neg hx, if_neg hx]
    by_cases hxt : x = t
    · simp [hxt, Graph.succsD]
    · simp [hxt, Graph.succsD]

theorem Edge_connect {g : Graph} (hs : KeysSorted g) {f t : Nat} (hft : f ≠ t)
    (x y : Nat) :
    Edge ((g.connect f t).2) x y ↔ (x = f ∧ y = t) ∨ Edge g x y := by
  unfold Edge
  rw [succsD_connect hs hft]
  by_cases hx : x = f
  · subst hx
    rw [if_pos rfl, mem_setInsert]
    tauto
  · rw [if_neg hx]
    constructor
    · exact Or.inr
    · rintro (⟨rfl, _⟩ | h)
      · exact absurd rfl hx
      · exact h

theorem mem_keys_connect {g : Graph} {f t : Nat} (hft : f ≠ t) (x : Nat) :
    x ∈ keysOf (g.connect f t).2 ↔ x = f ∨ x = t ∨ x ∈ keysOf g := by
  unfold Graph.connect keysOf
  rw [if_neg hft]
  show x ∈ (mapInsertEdge (mapWithNode g.nodes t) f t).map _ ↔ _
  rw [keys_mapInsertEdge, keys_mapWithNode]

theorem keysOf_connect_of_mem {g : Graph} (hs : KeysSorted g) {f t : Nat}
    (hft : f ≠ t) (hf : f ∈ keysOf g) (ht : t ∈ keysOf g) :
    keysOf (g.connect f t).2 = keysOf g := by
  unfold Graph.connect keysOf
  rw [if_neg hft]
  show (mapInsertEdge (mapWithNode g.nodes t) f t).map _ = _
  rw [mapWithNode_of_mem hs ht, keysList_mapInsertEdge_of_mem hs hf]

theorem connect_sorted {g : Graph} (hs : KeysSorted g) (f t : Nat) :
    KeysSorted (g.connect f t).2 := by
  by_cases hft : f = t
  · simpa [Graph.connect, hft] using hs
  · unfold Graph.connect KeysSorted keysOf
    rw [if_neg hft]
    exact mapInsertEdge_sorted (mapWithNode_sorted hs t) f t

theorem connect_WF {g : Graph} (h : WF g) (f t : Nat) : WF (g.connect f t).2 := by
  by_cases hft : f = t
  · simpa [Graph.connect, hft] using h
  · refine ⟨connect_sorted h.sorted f t, ?_, ?_, ?_⟩
    · intro p hp
      unfold Graph.connect at hp
      rw [if_neg hft] at hp
      rcases mapInsertEdge_entry hp with h1 | h1 | ⟨es, h2, h3⟩
      · rcases mapWithNode_entry h1 with h4 | h4
        · exact h.edges p h4
        · rw [h4]; exact List.Pairwise.nil
      · rw [h1]; exact List.pairwise_cons.mpr ⟨by simp, List.Pairwise.nil⟩
      · rcases mapWithNode_entry h2 with h4 | h4
        · rw [h3]; exact setInsert_sorted (h.edges _ h4) t
        · rw [h3]
          have : es = [] := congrArg Prod.snd h4
          rw [this]
          exact setInsert_sorted List.Pairwise.nil t
    · intro p hp
      unfold Graph.connect at hp
      rw [if_neg hft] at hp
      rcases mapInsertEdge_entry hp with h1 | h1 | ⟨es, h2, h3⟩
      · rcases mapWithNode_entry h1 with h4 | h4
        · exact h.noSelf p h4
        · rw [h4]; simp
      · rw [h1]; simpa using hft
      · rcases mapWithNode_entry h2 with h4 | h4
        · rw [h3]
          intro hmem
          rcases mem_setInsert.mp hmem with h5 | h5
          · exact hft h5
          · exact h.noSelf _ h4 h5
        · have hf : p.1 = f := congrArg Prod.fst h3
          have hes : es = [] := congrArg Prod.snd h4
          rw [h3]
          intro hmem
          rcases mem_setInsert.mp hmem with h5 | h5
          · exact hft h5
          · rw [hes] at h5; cases h5
    · intro p hp y hy
      have hsub : ∀ z, z ∈ keysOf g → z ∈ keysOf (g.connect f t).2 := by
        intro z hz
        exact (mem_keys_connect hft z).mpr (Or.inr (Or.inr hz))
      have hfin : f ∈ keysOf (g.connect f t).2 :=
        (mem_keys_connect hft f).mpr (Or.inl rfl)
      have htin : t ∈ keysOf (g.connect f t).2 :=
        (mem_keys_connect hft t).mpr (Or.inr (Or.inl rfl))
      unfold Graph.connect at hp
      rw [if_neg hft] at hp
      rcases mapInsertEdge_entry hp with h1 | h1 | ⟨es, h2, h3⟩
      · rcases mapWithNode_entry h1 with h4 | h4
        · exact hsub y (h.closed p h4 y hy)
        · rw [h4] at hy; cases hy
      · rw [h1] at hy
        rcases List.mem_singleton.mp hy with rfl
        exact htin
      · rw [h3] at hy
        rcases mem_setInsert.mp hy with rfl | h5
        · exact htin
        · rcases mapWithNode_entry h2 with h4 | h4
          · exact hsub y (h.closed _ h4 y h5)
          · have : es = [] := congrArg Prod.snd h4
            rw [this] at h5; cases h5

theorem succsD_disconnect {g : Graph} (hs : KeysSorted g) (f t x : Nat) :
    (g.disconnect f t).succsD x =
      if x = f then setRemove (g.succsD f) t else g.succsD x := by
  unfold Graph.disconnect Graph.succsD
  show (mapLookup (mapDisconnect g.nodes f t) x).getD [] = _
  rw [mapLookup_mapDisconnect hs]
  by_cases hx : x = f
  · subst hx
    rw [if_pos rfl, if_pos rfl]
    rcases hl : mapLookup g.nodes x with _ | es <;> simp [setRemove]
  · rw [if_neg hx, if_neg hx]

theorem keysOf_disconnect (g : Graph) (f t : Nat) :
    keysOf (g.disconnect f t) = keysOf g := by
  unfold Graph.disconnect keysOf
  exact keys_mapDisconnect g.nodes f t

theorem disconnect_WF {g : Graph} (h : WF g) (f t : Nat) : WF (g.disconnect f t) := by
  refine ⟨?_, ?_, ?_, ?_⟩
  · unfold KeysSorted
    rw [keysOf_disconnect]
    exact h.sorted
  · intro p hp
    rcases mapDisconnect_entry hp with h1 | ⟨es, h2, h3⟩
    · exact h.edges p h1
    · rw [h3]
      exact setRemove_sorted (h.edges _ h2) t
  · intro p hp
    rcases mapDisconnect_entry hp with h1 | ⟨es, h2, h3⟩
    · exact h.noSelf p h1
    · rw [h3]
      intro hmem
      exact h.noSelf _ h2 (mem_of_mem_setRemove hmem)
  · intro p hp y hy
    rw [show keysOf (g.disconnect f t) = keysOf g from keysOf_disconnect g f t] at *
    rcases mapDisconnect_entry hp with h1 | ⟨es, h2, h3⟩
    · exact h.closed p h1 y hy
    · rw [h3] at hy
      exact h.closed _ h2 y (mem_of_mem_setRemove hy)

/-! ### Failure cases leave the graph unchanged -/

theorem collapsePair_false_eq {g : Graph} {a b : Nat}
    (h : (g.collapsePair a b).1 = false) : (g.collapsePair a b).2 = g := by
  unfold Graph.collapsePair at h ⊢
  by_cases hab : a = b
  · rw [if_pos hab]
  · rw [if_neg hab] at h ⊢
    rcases h1 : mapLookup g.nodes a with _ | aEs <;>
      rcases h2 : mapLookup g.nodes b with _ | bEs <;>
        simp only [h1, h2] at h ⊢
    by_cases hcon : b ∈ aEs ∨ a ∈ bEs
    · rw [if_pos hcon] at h; cases h
    · rw [if_neg hcon]

theorem collapseCycle_false_eq {g : Graph} {c : Cycle}
    (h : (g.collapseCycle c).1 = false) : (g.collapseCycle c).2 = g := by
  unfold Graph.collapseCycle at h ⊢
  by_cases hc : g.checkCycle c
  · rw [if_pos hc] at h
    rcases hv : c.val with _ | ⟨first, rest⟩ <;> rw [hv] at h <;> cases h
  · rw [if_neg hc]

/-- A fixed two-element cycle used in concrete instantiations. -/
def cyc12 : Cycle := ⟨[1, 2], by decide, by decide⟩

/-! ### The `argmin` scan finds a minimal element -/

theorem argminAux_spec (l : List Nat) :
    ∀ (xs : List Nat) (i bi bv : Nat), l.drop i = xs → l.get? bi = some bv →
      ∃ rv, l.get? (argminAux xs i bi bv) = some rv ∧ rv ≤ bv ∧
        ∀ x ∈ xs, rv ≤ x := by
  intro xs
  induction xs with
  | nil =>
    intro i bi bv hdrop hget
    exact ⟨bv, hget, le_refl _, by simp⟩
  | cons x xs' ih =>
    intro i bi bv hdrop hget
    have hx : l.get? i = some x := by
      have h0 : (l.drop i).get? 0 = l.get? (i + 0) := by
        simp [List.get?_eq_getElem?, List.getElem?_drop]
      rw [hdrop] at h0
      simpa using h0.symm
    have hdrop' : l.drop (i + 1) = xs' := by
      have h1 : (l.drop i).drop 1 = l.drop (i + 1) := List.drop_drop 1 i l
      rw [hdrop] at h1
      simpa using h1.symm
    unfold argminAux
    by_cases hc : x < bv
    · rw [if_pos hc]
      rcases ih (i + 1) i x hdrop' hx with ⟨rv, h1, h2, h3⟩
      refine ⟨rv, h1, le_of_lt (lt_of_le_of_lt h2 hc), ?_⟩
      intro y hy
      rcases List.mem_cons.mp hy with rfl | hy
      · exact h2
      · exact h3 y hy
    · rw [if_neg hc]
      rcases ih (i + 1) bi bv hdrop' hget with ⟨rv, h1, h2, h3⟩
      refine ⟨rv, h1, h2, ?_⟩
      intro y hy
      rcases List.mem_cons.mp hy with rfl | hy
      · exact le_trans h2 (Nat.le_of_not_lt hc)
      · exact h3 y hy

theorem argminIdx_spec {l : List Nat} (h : l ≠ []) :
    ∃ rv, l.get? (argminIdx l) = some rv ∧ ∀ x ∈ l, rv ≤ x := by
  rcases l with _ | ⟨x, xs⟩
  · exact absurd rfl h
  · unfold argminIdx
    rcases argminAux_spec (x :: xs) xs 1 0 x (by simp) (by simp) with ⟨rv, h1, h2, h3⟩
    refine ⟨rv, h1, ?_⟩
    intro y hy
    rcases List.mem_cons.mp hy with rfl | hy
    · exact h2
    · exact h3 y hy

theorem argminIdx_lt_length {l : List Nat} (h : l ≠ []) : argminIdx l < l.length := by
  rcases argminIdx_spec h with ⟨rv, h1, _⟩
  exact (List.get?_eq_some.mp h1).1

/-! ### Canonical form of constructed cycles -/

theorem cycleNew_val {l : List Nat} (hn : l.Nodup) (h2 : 2 ≤ l.length) :
    ∃ c, Cycle.new l = some c ∧ c.val = l.rotate (argminIdx l) := by
  have hne : l ≠ [] := by
    intro h; rw [h] at h2; simp at h2
  have hai : argminIdx l < l.length := argminIdx_lt_length hne
  refine ⟨⟨rotateRight l (l.length - argminIdx l),
    rotateRight_nodup hn _,
    le_trans h2 (le_of_eq (rotateRight_length l _).symm)⟩, ?_, ?_⟩
  · unfold Cycle.new
    rw [dif_pos ⟨hn, h2⟩]
  · show rotateRight l (l.length - argminIdx l) = l.rotate (argminIdx l)
    rw [rotateRight_eq_rotate]
    rcases Nat.eq_zero_or_pos (argminIdx l) with h0 | hpos
    · rw [h0, Nat.sub_zero, Nat.mod_self, Nat.sub_zero, List.rotate_length,
        List.rotate_zero]
    · have hlt : l.length - argminIdx l < l.length := by omega
      rw [Nat.mod_eq_of_lt hlt]
      congr 1
      omega

theorem cycleNew_head_min {l : List Nat} (hn : l.Nodup) (h2 : 2 ≤ l.length) :
    ∃ c, Cycle.new l = some c ∧ c.val = l.rotate (argminIdx l) ∧
      ∃ m, c.val.head? = some m ∧ m ∈ l ∧ ∀ x ∈ l, m ≤ x := by
  have hne : l ≠ [] := by
    intro h; rw [h] at h2; simp at h2
  have hai : argminIdx l < l.length := argminIdx_lt_length hne
  rcases cycleNew_val hn h2 with ⟨c, hc, hval⟩
  rcases argminIdx_spec hne with ⟨m, hm1, hm2⟩
  refine ⟨c, hc, hval, m, ?_, List.get?_mem hm1, hm2⟩
  rw [hval, List.head?_rotate hai, ← List.get?_eq_getElem?]
  exact hm1

/-- C6: constructing a `Cycle` from any rotation of a valid sequence of at
least two distinct ids succeeds and yields the same value, stored with its
minimum element first. -/
theorem cycle_rotation_canonical (l : List Nat) (hn : l.Nodup)
    (h2 : 2 ≤ l.length) (k : Nat) :
    Cycle.new (l.rotate k) = Cycle.new l ∧
      ∃ c, Cycle.new l = some c ∧
        ∃ m, c.val.head? = some m ∧ ∀ x ∈ c.val, m ≤ x := by
  have hlen0 : 0 < l.length := by omega
  have hn' : (l.rotate k).Nodup := (List.nodup_rotate).mpr hn
  have h2' : 2 ≤ (l.rotate k).length := by rw [List.length_rotate]; exact h2
  rcases cycleNew_head_min hn h2 with ⟨c1, hc1, hval1, m1, hh1, hm1mem, hm1min⟩
  rcases cycleNew_head_min hn' h2' with ⟨c2, hc2, hval2, m2, hh2, hm2mem, hm2min⟩
  have hmem_rot : ∀ x, x ∈ l.rotate k ↔ x ∈ l := fun x => List.mem_rotate
  have hm2mem' : m2 ∈ l := (hmem_rot m2).mp hm2mem
  have hm1eq : m1 = m2 :=
    Nat.le_antisymm (hm1min m2 hm2mem') (hm2min m1 ((hmem_rot m1).mpr hm1mem))
  -- both canonical forms are rotations of `l` whose head is the minimum
  have hval2' : c2.val = l.rotate (k + argminIdx (l.rotate k)) := by
    rw [hval2, List.rotate_rotate]
  set A := argminIdx l with hA
  set B := (k + argminIdx (l.rotate k)) % l.length with hB
  have hAlt : A < l.length := argminIdx_lt_length (by
    intro h; rw [h] at h2; simp at h2)
  have hBlt : B < l.length := Nat.mod_lt _ hlen0
  have hval2B : c2.val = l.rotate B := by
    rw [hval2', hB, List.rotate_mod]
  have hgetA : l.get? A = some m1 := by
    have := hh1
    rw [hval1, List.head?_rotate hAlt, ← List.get?_eq_getElem?] at this
    exact this
  have hgetB : l.get? B = some m1 := by
    have := hh2
    rw [hval2B, List.head?_rotate hBlt, ← List.get?_eq_getElem?] at this
    rw [this, hm1eq]
  have hAB : A = B := by
    rcases List.get?_eq_some.mp hgetA with ⟨hA', hgA⟩
    rcases List.get?_eq_some.mp hgetB with ⟨hB', hgB⟩
    have : l.get ⟨A, hA'⟩ = l.get ⟨B, hB'⟩ := by rw [hgA, hgB]
    have := (hn.get_inj_iff).mp this
    exact congrArg Fin.val this
  have hvals : c2.val = c1.val := by rw [hval2B, ← hAB, ← hval1]
  refine ⟨?_, c1, hc1, m1, hh1, ?_⟩
  · rw [hc1, hc2, Cycle.ext_val hvals]
  · intro x hx
    rw [hval1] at hx
    exact hm1min x (List.mem_rotate.mp hx)

/-- C6 witness instance: the rotation `[2,3,1]` of `[1,2,3]`. -/
theorem cycle_rotation_canonical_witness :
    Cycle.new ([1, 2, 3].rotate 1) = Cycle.new [1, 2, 3] ∧
      ∃ c, Cycle.new [1, 2, 3] = some c ∧
        ∃ m, c.val.head? = some m ∧ ∀ x ∈ c.val, m ≤ x :=
  cycle_rotation_canonical [1, 2, 3] (by decide) (by decide) 1

/-- C9: cycle construction fails exactly on duplicates or length below two
(and, being a total function, never panics). -/
theorem cycle_new_none_iff (l : List Nat) :
    Cycle.new l = none ↔ ¬l.Nodup ∨ l.length < 2 := by
  unfold Cycle.new
  by_cases h : l.Nodup ∧ 2 ≤ l.length
  · rw [dif_pos h]
    simp only [reduceCtorEq, false_iff]
    push_neg
    exact ⟨h.1, h.2⟩
  · rw [dif_neg h]
    simp only [true_iff]
    rcases Decidable.not_and_iff_or_not.mp h with h1 | h1
    · exact Or.inl h1
    · exact Or.inr (by omega)

/-- C8: when `connect`, `collapse_pair` or `collapse_cycle` reports failure
the graph is unchanged, and `connect(a,a)` always fails without creating
`a`. -/
theorem rejected_ops_leave_graph_unchanged (g : Graph) (a b : Nat) (c : Cycle) :
    ((g.connect a b).1 = false → (g.connect a b).2 = g) ∧
    ((g.collapsePair a b).1 = false → (g.collapsePair a b).2 = g) ∧
    ((g.collapseCycle c).1 = false → (g.collapseCycle c).2 = g) ∧
    g.connect a a = (false, g) :=
  ⟨connect_false_eq, collapsePair_false_eq, collapseCycle_false_eq,
    connect_self g a⟩

/-- C8 witness instance: failing `connect`/`collapse_pair`/`collapse_cycle`
calls on the empty graph leave it unchanged. -/
theorem rejected_ops_leave_graph_unchanged_witness :
    ((⟨[]⟩ : Graph).connect 5 5).2 = (⟨[]⟩ : Graph) ∧
    ((⟨[]⟩ : Graph).collapsePair 1 2).2 = (⟨[]⟩ : Graph) ∧
    ((⟨[]⟩ : Graph).collapseCycle cyc12).2 = (⟨[]⟩ : Graph) :=
  ⟨(rejected_ops_leave_graph_unchanged ⟨[]⟩ 5 5 cyc12).1 (by decide),
   (rejected_ops_leave_graph_unchanged ⟨[]⟩ 1 2 cyc12).2.1 (by decide),
   (rejected_ops_leave_graph_unchanged ⟨[]⟩ 1 2 cyc12).2.2.1 (by decide)⟩

/-! ### Concrete scenario graphs -/

/-- A single isolated node `7`. -/
def isolatedGraph : Graph := ⟨[(7, [])]⟩

/-- The two disjoint chains `1→2` and `3→4`. -/
def chainPairGraph : Graph := ⟨[(1, [2]), (2, []), (3, [4]), (4, [])]⟩

/-- The graph claimed by the spec scenario for `needed_to_connect`:
nodes `{1,2,3,4}` with edge set exactly `2→4, 4→1, 1→3`. -/
def claimedConnectorGraph : Graph := ⟨[(1, [3]), (2, [4]), (3, []), (4, [1])]⟩

/-- The 3-cycle `1→2, 2→3, 3→1`. -/
def threeCycleGraph : Graph := ⟨[(1, [2]), (2, [3]), (3, [1])]⟩

/-! ### C1: the return value of `simplify` versus nodes removed -/

/-- C1 counterexample: on the single isolated node `7`, `simplify` returns
`0` while one node is removed (by the final cleanup), so the return value
is not the number of nodes removed. -/
theorem simplify_count_counterexample :
    (Graph.simplify isolatedGraph).1 ≠
      isolatedGraph.nodes.length - (Graph.simplify isolatedGraph).2.nodes.length := by
  decide

/-- C1 amended: `simplify` returns the sum of the lengths of all collapsed
cycles (which can differ from the number of nodes removed: each collapse
keeps the cycle's first node, and the final cleanup can also remove
pre-existing isolated nodes). -/
theorem simplifyLoop_removed_eq_sum (fuel : Nat) :
    ∀ (g : Graph) (r : Nat),
      (Graph.simplifyLoop fuel g r).1 =
        r + ((Graph.simplifyLoopCycles fuel g).map (fun c => c.val.length)).sum := by
  induction fuel with
  | zero => intro g r; simp [Graph.simplifyLoop, Graph.simplifyLoopCycles]
  | succ fuel ih =>
    intro g r
    unfold Graph.simplifyLoop Graph.simplifyLoopCycles
    rcases h : g.findCycle with _ | c
    · simp
    · simp only [List.map_cons, List.sum_cons, ih]
      omega

/-- C1 amended, top level: the value returned by `simplify` is the total of
the collapsed cycle lengths. -/
theorem simplify_returns_sum_of_cycle_lengths (g : Graph) :
    (Graph.simplify g).1 =
      ((Graph.simplifyLoopCycles (g.nodes.length + 1) g).map
        (fun c => c.val.length)).sum := by
  unfold Graph.simplify
  simpa using simplifyLoop_removed_eq_sum (g.nodes.length + 1) g 0

/-! ### C2: the `needed_to_connect` scenario -/

/-- C2 counterexample: on the two chains `1→2` and `3→4`,
`needed_to_connect` does not return the graph whose edges are exactly the
connector chain `2→4, 4→1, 1→3`; in particular the original edge `1→2`
is also present in the result. -/
theorem needed_to_connect_counterexample :
    Graph.neededToConnect chainPairGraph ≠ claimedConnectorGraph ∧
      (Graph.neededToConnect chainPairGraph).edgeB 1 2 = true := by
  decide

/-- C2 amended: on the two chains `1→2` and `3→4`, `needed_to_connect`
returns the graph over nodes `{1,2,3,4}` whose edges are the connector
chain `2→4, 4→1, 1→3` together with the surviving original edges `1→2`
and `3→4`. -/
theorem needed_to_connect_scenario :
    Graph.neededToConnect chainPairGraph =
      ⟨[(1, [2, 3]), (2, [4]), (3, [4]), (4, [1])]⟩ := by
  decide

/-! ### C3: the 3-cycle scenario -/

/-- C3 counterexample: after `simplify` on the 3-cycle, the remaining graph
is not the single node `1`: the final cleanup also removes the isolated
survivor `1`. -/
theorem three_cycle_simplify_counterexample :
    (Graph.simplify threeCycleGraph).2 ≠ (⟨[(1, [])]⟩ : Graph) := by
  decide

/-- C3 amended: on the 3-cycle `1→2, 2→3, 3→1`, `find_cycle` returns the
cycle `[1,2,3]` and `simplify` returns `3`, leaving the empty graph (the
surviving node `1` ends isolated and is removed by the final cleanup). -/
theorem three_cycle_scenario :
    (Graph.findCycle threeCycleGraph).map Cycle.val = some [1, 2, 3] ∧
      Graph.simplify threeCycleGraph = (3, ⟨[]⟩) := by
  decide

/-! ### A weaker invariant for intermediate collapse states

During `collapse_pair` the removed node may still be referenced by other
edge sets, so closure is temporarily broken; the remaining invariants
survive every step. -/

structure PreWF (g : Graph) : Prop where
  sorted : KeysSorted g
  edges : EdgesSorted g
  noSelf : NoSelfLoops g

theorem WF.toPreWF {g : Graph} (h : WF g) : PreWF g := ⟨h.sorted, h.edges, h.noSelf⟩

theorem succsD_sorted {g : Graph} (he : EdgesSorted g) (x : Nat) :
    List.Pairwise (· < ·) (g.succsD x) := by
  unfold Graph.succsD
  rcases hl : mapLookup g.nodes x with _ | es
  · exact List.Pairwise.nil
  · exact he _ (mapLookup_mem hl)

theorem connect_edgesSorted {g : Graph} (he : EdgesSorted g) (f t : Nat) :
    EdgesSorted (g.connect f t).2 := by
  by_cases hft : f = t
  · simpa [Graph.connect, hft] using he
  · intro p hp
    unfold Graph.connect at hp
    rw [if_neg hft] at hp
    rcases mapInsertEdge_entry hp with h1 | h1 | ⟨es, h2, h3⟩
    · rcases mapWithNode_entry h1 with h4 | h4
      · exact he p h4
      · rw [h4]; exact List.Pairwise.nil
    · rw [h1]; exact List.pairwise_cons.mpr ⟨by simp, List.Pairwise.nil⟩
    · rcases mapWithNode_entry h2 with h4 | h4
      · rw [h3]; exact setInsert_sorted (he _ h4) t
      · rw [h3, show es = [] from congrArg Prod.snd h4]
        exact setInsert_sorted List.Pairwise.nil t

theorem connect_noSelf {g : Graph} (hn : NoSelfLoops g) (f t : Nat) :
    NoSelfLoops (g.connect f t).2 := by
  by_cases hft : f = t
  · simpa [Graph.connect, hft] using hn
  · intro p hp
    unfold Graph.connect at hp
    rw [if_neg hft] at hp
    rcases mapInsertEdge_entry hp with h1 | h1 | ⟨es, h2, h3⟩
    · rcases mapWithNode_entry h1 with h4 | h4
      · exact hn p h4
      · rw [h4]; simp
    · rw [h1]; simpa using hft
    · rcases mapWithNode_entry h2 with h4 | h4
      · rw [h3]
        intro hmem
        rcases mem_setInsert.mp hmem with h5 | h5
        · exact hft h5
        · exact hn _ h4 h5
      · rw [h3, show es = [] from congrArg Prod.snd h4]
        intro hmem
        rcases mem_setInsert.mp hmem with h5 | h5
        · exact hft h5
        · cases h5

theorem connect_preWF {g : Graph} (h : PreWF g) (f t : Nat) :
    PreWF (g.connect f t).2 :=
  ⟨connect_sorted h.sorted f t, connect_edgesSorted h.edges f t,
    connect_noSelf h.noSelf f t⟩

theorem disconnect_preWF {g : Graph} (h : PreWF g) (f t : Nat) :
    PreWF (g.disconnect f t) := by
  refine ⟨?_, ?_, ?_⟩
  · unfold KeysSorted
    rw [keysOf_disconnect]
    exact h.sorted
  · intro p hp
    rcases mapDisconnect_entry hp with h1 | ⟨es, h2, h3⟩
    · exact h.edges p h1
    · rw [h3]; exact setRemove_sorted (h.edges _ h2) t
  · intro p hp
    rcases mapDisconnect_entry hp with h1 | ⟨es, h2, h3⟩
    · exact h.noSelf p h1
    · rw [h3]
      intro hmem
      exact h.noSelf _ h2 (mem_of_mem_setRemove hmem)

/-! ### Removing a key, graph level -/

theorem keysOf_removeNode (g : Graph) (b : Nat) :
    keysOf (⟨mapRemove g.nodes b⟩ : Graph) = (keysOf g).erase b :=
  keys_mapRemove g.nodes b

theorem succsD_removeNode {g : Graph} (hs : KeysSorted g) (b x : Nat) :
    (⟨mapRemove g.nodes b⟩ : Graph).succsD x =
      if x = b then [] else g.succsD x := by
  unfold Graph.succsD
  show (mapLookup (mapRemove g.nodes b) x).getD [] = _
  rw [mapLookup_mapRemove hs]
  by_cases hx : x = b
  · simp [hx]
  · rw [if_neg hx, if_neg hx]

theorem removeNode_preWF {g : Graph} (h : PreWF g) (b : Nat) :
    PreWF (⟨mapRemove g.nodes b⟩ : Graph) := by
  refine ⟨?_, ?_, ?_⟩
  · unfold KeysSorted
    rw [keysOf_removeNode]
    exact h.sorted.sublist (List.erase_sublist _ _)
  · intro p hp
    exact h.edges p ((mapRemove_sublist g.nodes b).mem hp)
  · intro p hp
    exact h.noSelf p ((mapRemove_sublist g.nodes b).mem hp)

/-! ### `toList` and key lists -/

theorem toList_sublist_keys (g : Graph) (t : Nat) : (g.toList t).Sublist (keysOf g) := by
  unfold Graph.toList keysOf
  induction g.nodes with
  | nil => simp
  | cons p rest ih =>
    by_cases h : t ∈ p.2
    · simpa [h] using List.Sublist.cons₂ p.1 ih
    · simpa [h] using List.Sublist.cons p.1 ih

theorem toList_nodup {g : Graph} (hs : KeysSorted g) (t : Nat) : (g.toList t).Nodup :=
  ((hs.sublist (toList_sublist_keys g t))).nodup

/-! ### The edge-redistribution loop of `collapse_pair`
(`for to in removed_set { connect(a, to) }`) -/

theorem fold2_preWF (a : Nat) :
    ∀ (L : List Nat) (acc : Graph), PreWF acc →
      PreWF (L.foldl (fun acc t => if t = a then acc else (acc.connect a t).2) acc) := by
  intro L
  induction L with
  | nil => intro acc h; exact h
  | cons t L' ih =>
    intro acc h
    simp only [List.foldl_cons]
    by_cases ht : t = a
    · rw [if_pos ht]; exact ih acc h
    · rw [if_neg ht]; exact ih _ (connect_preWF h a t)

theorem fold2_succsD_ne (a : Nat) :
    ∀ (L : List Nat) (acc : Graph), KeysSorted acc → ∀ x, x ≠ a →
      (L.foldl (fun acc t => if t = a then acc else (acc.connect a t).2) acc).succsD x =
        acc.succsD x := by
  intro L
  induction L with
  | nil => intro acc _ x _; rfl
  | cons t L' ih =>
    intro acc hs x hx
    simp only [List.foldl_cons]
    by_cases ht : t = a
    · rw [if_pos ht]; exact ih acc hs x hx
    · rw [if_neg ht]
      rw [ih _ (connect_sorted hs a t) x hx,
        succsD_connect hs (fun h => ht h.symm) x, if_neg hx]

theorem fold2_edge_a (a : Nat) :
    ∀ (L : List Nat) (acc : Graph), KeysSorted acc → ∀ y,
      (Edge (L.foldl (fun acc t => if t = a then acc else (acc.connect a t).2) acc) a y ↔
        (y ∈ L ∧ y ≠ a) ∨ Edge acc a y) := by
  intro L
  induction L with
  | nil => intro acc _ y; simp
  | cons t L' ih =>
    intro acc hs y
    simp only [List.foldl_cons]
    by_cases ht : t = a
    · rw [if_pos ht, ih acc hs y]
      subst ht
      constructor
      · rintro (⟨h1, h2⟩ | h1)
        · exact Or.inl ⟨List.mem_cons_of_mem _ h1, h2⟩
        · exact Or.inr h1
      · rintro (⟨h1, h2⟩ | h1)
        · rcases List.mem_cons.mp h1 with rfl | h1
          · exact absurd rfl h2
          · exact Or.inl ⟨h1, h2⟩
        · exact Or.inr h1
    · rw [if_neg ht, ih _ (connect_sorted hs a t) y,
        Edge_connect hs (fun h => ht h.symm)]
      constructor
      · rintro (⟨h1, h2⟩ | ⟨_, rfl⟩ | h1)
        · exact Or.inl ⟨List.mem_cons_of_mem _ h1, h2⟩
        · exact Or.inl ⟨List.mem_cons_self _ _, ht⟩
        · exact Or.inr h1
      · rintro (⟨h1, h2⟩ | h1)
        · rcases List.mem_cons.mp h1 with rfl | h1
          · exact Or.inr (Or.inl ⟨rfl, rfl⟩)
          · exact Or.inl ⟨h1, h2⟩
        · exact Or.inr (Or.inr h1)

theorem fold2_keys (a : Nat) :
    ∀ (L : List Nat) (acc : Graph), KeysSorted acc → a ∈ keysOf acc →
      (∀ t ∈ L, t ≠ a → t ∈ keysOf acc) →
      keysOf (L.foldl (fun acc t => if t = a then acc else (acc.connect a t).2) acc) =
        keysOf acc := by
  intro L
  induction L with
  | nil => intro acc _ _ _; rfl
  | cons t L' ih =>
    intro acc hs ha hL
    simp only [List.foldl_cons]
    by_cases ht : t = a
    · rw [if_pos ht]
      exact ih acc hs ha (fun u hu => hL u (List.mem_cons_of_mem _ hu))
    · rw [if_neg ht]
      have hkeq : keysOf (acc.connect a t).2 = keysOf acc :=
        keysOf_connect_of_mem hs (fun h => ht h.symm) ha
          (hL t (List.mem_cons_self _ _) ht)
      rw [ih _ (connect_sorted hs a t) (hkeq ▸ ha)
        (fun u hu hua => hkeq ▸ hL u (List.mem_cons_of_mem _ hu) hua), hkeq]

/-! ### The incoming-edge redirection loop of `collapse_pair`
(`for from in to(b) { connect(from, a); disconnect(from, b) }`) -/

theorem step3_edge_mono {acc : Graph} (hs : KeysSorted acc) (he : EdgesSorted acc)
    {a b f x y : Nat} (hyb : y ≠ b) (h : Edge acc x y) :
    Edge (((acc.connect f a).2).disconnect f b) x y := by
  have hconn : Edge (acc.connect f a).2 x y := by
    by_cases hfa : f = a
    · rw [hfa, connect_self]; exact h
    · exact (Edge_connect hs hfa x y).mpr (Or.inr h)
  unfold Edge
  rw [succsD_disconnect (connect_sorted hs f a) f b x]
  by_cases hx : x = f
  · rw [if_pos hx]
    rw [mem_setRemove (succsD_sorted (connect_edgesSorted he f a) f)]
    subst hx
    exact ⟨hconn, hyb⟩
  · rw [if_neg hx]
    exact hconn

theorem step3_edge_bound {acc : Graph} (hs : KeysSorted acc) (he : EdgesSorted acc)
    {a b f x y : Nat}
    (h : Edge (((acc.connect f a).2).disconnect f b) x y) :
    (Edge acc x y ∧ ¬(x = f ∧ y = b)) ∨ (y = a ∧ x = f) := by
  unfold Edge at h
  rw [succsD_disconnect (connect_sorted hs f a) f b x] at h
  by_cases hx : x = f
  · subst hx
    rw [if_pos rfl] at h
    rw [mem_setRemove (succsD_sorted (connect_edgesSorted he x a) x)] at h
    obtain ⟨h1, hyb⟩ := h
    have hconn : Edge (acc.connect x a).2 x y := h1
    by_cases hfa : x = a
    · subst hfa
      rw [connect_self] at hconn
      exact Or.inl ⟨hconn, fun hc => hyb hc.2⟩
    · rcases (Edge_connect hs hfa x y).mp hconn with ⟨_, rfl⟩ | h2
      · exact Or.inr ⟨rfl, rfl⟩
      · exact Or.inl ⟨h2, fun hc => hyb hc.2⟩
  · rw [if_neg hx] at h
    by_cases hfa : f = a
    · subst hfa
      rw [connect_self] at h
      exact Or.inl ⟨h, fun hc => hx hc.1⟩
    · rcases (Edge_connect hs hfa x y).mp h with ⟨rfl, rfl⟩ | h2
      · exact absurd rfl hx
      · exact Or.inl ⟨h2, fun hc => hx hc.1⟩

theorem step3_preWF {acc : Graph} (h : PreWF acc) (a b f : Nat) :
    PreWF (((acc.connect f a).2).disconnect f b) :=
  disconnect_preWF (connect_preWF h f a) f b

theorem fold3_preWF (a b : Nat) :
    ∀ (L : List Nat) (acc : Graph), PreWF acc →
      PreWF (L.foldl (fun acc f => ((acc.connect f a).2).disconnect f b) acc) := by
  intro L
  induction L with
  | nil => intro acc h; exact h
  | cons f L' ih =>
    intro acc h
    simp only [List.foldl_cons]
    exact ih _ (step3_preWF h a b f)

theorem fold3_keys (a b : Nat) :
    ∀ (L : List Nat) (acc : Graph), KeysSorted acc → a ∈ keysOf acc →
      (∀ f ∈ L, f ∈ keysOf acc) →
      keysOf (L.foldl (fun acc f => ((acc.connect f a).2).disconnect f b) acc) =
        keysOf acc := by
  intro L
  induction L with
  | nil => intro acc _ _ _; rfl
  | cons f L' ih =>
    intro acc hs ha hL
    simp only [List.foldl_cons]
    have hstep : keysOf (((acc.connect f a).2).disconnect f b) = keysOf acc := by
      rw [keysOf_disconnect]
      by_cases hfa : f = a
      · rw [hfa, connect_self]
      · exact keysOf_connect_of_mem hs hfa (hL f (List.mem_cons_self _ _)) ha
    have hs' : KeysSorted (((acc.connect f a).2).disconnect f b) := by
      unfold KeysSorted
      rw [hstep]
      exact hs
    rw [ih _ hs' (hstep ▸ ha) (fun u hu => hstep ▸ hL u (List.mem_cons_of_mem _ hu)),
      hstep]

theorem fold3_edge_mono (a b : Nat) :
    ∀ (L : List Nat) (acc : Graph), PreWF acc → ∀ x y, y ≠ b → Edge acc x y →
      Edge (L.foldl (fun acc f => ((acc.connect f a).2).disconnect f b) acc) x y := by
  intro L
  induction L with
  | nil => intro acc _ x y _ h; exact h
  | cons f L' ih =>
    intro acc hp x y hyb h
    simp only [List.foldl_cons]
    exact ih _ (step3_preWF hp a b f) x y hyb
      (step3_edge_mono hp.sorted hp.edges hyb h)

theorem fold3_edge_bound (a b : Nat) :
    ∀ (L : List Nat) (acc : Graph), PreWF acc → ∀ x y,
      Edge (L.foldl (fun acc f => ((acc.connect f a).2).disconnect f b) acc) x y →
      (Edge acc x y ∧ ¬(x ∈ L ∧ y = b)) ∨ (y = a ∧ x ∈ L) := by
  intro L
  induction L with
  | nil => intro acc _ x y h; exact Or.inl ⟨h, by simp⟩
  | cons f L' ih =>
    intro acc hp x y h
    simp only [List.foldl_cons] at h
    rcases ih _ (step3_preWF hp a b f) x y h with ⟨h1, h2⟩ | ⟨rfl, h1⟩
    · rcases step3_edge_bound hp.sorted hp.edges h1 with ⟨h3, h4⟩ | ⟨rfl, rfl⟩
      · refine Or.inl ⟨h3, ?_⟩
        rintro ⟨hmem, rfl⟩
        rcases List.mem_cons.mp hmem with rfl | hmem
        · exact h4 ⟨rfl, rfl⟩
        · exact h2 ⟨hmem, rfl⟩
      · exact Or.inr ⟨rfl, List.mem_cons_self _ _⟩
    · exact Or.inr ⟨rfl, List.mem_cons_of_mem _ h1⟩

/-! ### The full effect of a successful `collapse_pair` -/

theorem keysNodup {g : Graph} (hs : KeysSorted g) : (keysOf g).Nodup :=
  hs.imp Nat.ne_of_lt

theorem closed_of_edges {g : Graph} (hs : KeysSorted g)
    (h : ∀ x y, Edge g x y → y ∈ keysOf g) : Closed g := by
  intro p hp t ht
  apply h p.1 t
  unfold Edge
  rw [succsD_eq_of_mem hs (show (p.1, p.2) ∈ g.nodes from hp)]
  exact ht

theorem collapsePair_eq_of {g : Graph} {a b : Nat} {aEs bEs : List Nat}
    (hab : ¬a = b) (ha : mapLookup g.nodes a = some aEs)
    (hb : mapLookup g.nodes b = some bEs) (hcon : b ∈ aEs ∨ a ∈ bEs) :
    g.collapsePair a b = (true,
      (((bEs.foldl (fun acc t => if t = a then acc else (acc.connect a t).2)
          (⟨mapRemove g.nodes b⟩ : Graph)).toList b).foldl
        (fun acc f => ((acc.connect f a).2).disconnect f b)
        (bEs.foldl (fun acc t => if t = a then acc else (acc.connect a t).2)
          (⟨mapRemove g.nodes b⟩ : Graph)))) := by
  simp only [Graph.collapsePair, if_neg hab, ha, hb, if_pos hcon]

theorem collapsePair_spec {g : Graph} (hwf : WF g) {a b : Nat} (hab : a ≠ b)
    (hbk : b ∈ keysOf g) (hcon : Edge g a b ∨ Edge g b a) :
    (g.collapsePair a b).1 = true ∧
    keysOf (g.collapsePair a b).2 = (keysOf g).erase b ∧
    WF (g.collapsePair a b).2 ∧
    (∀ x y, x ≠ a → x ≠ b → y ≠ b → Edge g x y → Edge (g.collapsePair a b).2 x y) ∧
    (∀ y, y ≠ a → Edge g b y → Edge (g.collapsePair a b).2 a y) := by
  have hak : a ∈ keysOf g := by
    rcases hcon with h | h
    · exact h.mem_keys
    · exact h.mem_keys_right hwf.closed
  rcases Option.isSome_iff_exists.mp (mapLookup_isSome.mpr hak) with ⟨aEs, hla⟩
  rcases Option.isSome_iff_exists.mp (mapLookup_isSome.mpr hbk) with ⟨bEs, hlb⟩
  have hsa : g.succsD a = aEs := by unfold Graph.succsD; rw [hla]; rfl
  have hsb : g.succsD b = bEs := by unfold Graph.succsD; rw [hlb]; rfl
  have hcon' : b ∈ aEs ∨ a ∈ bEs := by
    rcases hcon with h | h
    · unfold Edge at h; rw [hsa] at h; exact Or.inl h
    · unfold Edge at h; rw [hsb] at h; exact Or.inr h
  have heq := collapsePair_eq_of hab hla hlb hcon'
  rw [heq]
  -- notation for the three intermediate states
  set g1 : Graph := ⟨mapRemove g.nodes b⟩ with hg1
  set g2 : Graph :=
    bEs.foldl (fun acc t => if t = a then acc else (acc.connect a t).2) g1 with hg2
  set froms : List Nat := g2.toList b with hfr
  set g3 : Graph :=
    froms.foldl (fun acc f => ((acc.connect f a).2).disconnect f b) g2 with hg3
  -- facts about the source graph
  have hKnd : (keysOf g).Nodup := keysNodup hwf.sorted
  have hbes_edge : ∀ t ∈ bEs, Edge g b t := by
    intro t ht
    unfold Edge
    rw [hsb]
    exact ht
  have hbes_keys : ∀ t ∈ bEs, t ∈ keysOf g := by
    intro t ht
    exact Edge.mem_keys_right hwf.closed (hbes_edge t ht)
  have hbes_ne_b : ∀ t ∈ bEs, t ≠ b := by
    intro t ht heq
    subst heq
    exact noSelf_edge hwf.noSelf t (hbes_edge t ht)
  -- phase 1
  have hwf1 : PreWF g1 := removeNode_preWF hwf.toPreWF b
  have hkeys1 : keysOf g1 = (keysOf g).erase b := keysOf_removeNode g b
  have hsucc1 : ∀ x, g1.succsD x = if x = b then [] else g.succsD x :=
    succsD_removeNode hwf.sorted b
  have hedge1 : ∀ x y, Edge g1 x y ↔ x ≠ b ∧ Edge g x y := by
    intro x y
    unfold Edge
    rw [hsucc1 x]
    by_cases hx : x = b
    · simp [hx]
    · simp [hx]
  have hmem1 : ∀ x, x ∈ keysOf g1 ↔ x ≠ b ∧ x ∈ keysOf g := by
    intro x
    rw [hkeys1, hKnd.mem_erase_iff]
  -- phase 2
  have hwf2 : PreWF g2 := fold2_preWF a bEs g1 hwf1
  have hkeys2 : keysOf g2 = keysOf g1 := by
    apply fold2_keys a bEs g1 hwf1.sorted
    · exact (hmem1 a).mpr ⟨hab, hak⟩
    · intro t ht hta
      exact (hmem1 t).mpr ⟨hbes_ne_b t ht, hbes_keys t ht⟩
  have hsucc2 : ∀ x, x ≠ a → g2.succsD x = g1.succsD x :=
    fun x hx => fold2_succsD_ne a bEs g1 hwf1.sorted x hx
  have hedge2a : ∀ y, Edge g2 a y ↔ (y ∈ bEs ∧ y ≠ a) ∨ Edge g1 a y :=
    fold2_edge_a a bEs g1 hwf1.sorted
  have hedge2_ne : ∀ x y, x ≠ a → (Edge g2 x y ↔ Edge g1 x y) := by
    intro x y hx
    unfold Edge
    rw [hsucc2 x hx]
  -- phase 3
  have hfroms : ∀ x, x ∈ froms ↔ Edge g2 x b :=
    fun x => mem_toList_iff_edge hwf2.sorted
  have hfroms_keys : ∀ x ∈ froms, x ∈ keysOf g2 :=
    fun x hx => (toList_sublist_keys g2 b).mem hx
  have hwf3 : PreWF g3 := fold3_preWF a b froms g2 hwf2
  have hkeys3 : keysOf g3 = keysOf g2 := by
    apply fold3_keys a b froms g2 hwf2.sorted
    · rw [hkeys2]
      exact (hmem1 a).mpr ⟨hab, hak⟩
    · exact hfroms_keys
  have hkeys : keysOf g3 = (keysOf g).erase b := by
    rw [hkeys3, hkeys2, hkeys1]
  -- membership of `a` in the final graph
  have hmem3 : ∀ x, x ∈ keysOf g3 ↔ x ≠ b ∧ x ∈ keysOf g := by
    intro x
    rw [hkeys, hKnd.mem_erase_iff]
  -- no edge of the final graph points at `b`
  have hnotb : ∀ x y, Edge g3 x y → y ≠ b := by
    intro x y h3 heq
    rcases fold3_edge_bound a b froms g2 hwf2 x y h3 with ⟨h1, h2⟩ | ⟨h1, _⟩
    · exact h2 ⟨(hfroms x).mpr (heq ▸ h1), heq⟩
    · exact hab (h1.symm.trans heq)
  -- closure of the final graph
  have hclosed : Closed g3 := by
    apply closed_of_edges hwf3.sorted
    intro x y h3
    have hyb : y ≠ b := hnotb x y h3
    rcases fold3_edge_bound a b froms g2 hwf2 x y h3 with ⟨h1, _⟩ | ⟨hya, _⟩
    · by_cases hx : x = a
      · subst hx
        rcases (hedge2a y).mp h1 with ⟨h4, _⟩ | h4
        · exact (hmem3 y).mpr ⟨hyb, hbes_keys y h4⟩
        · have := ((hedge1 x y).mp h4).2
          exact (hmem3 y).mpr ⟨hyb, this.mem_keys_right hwf.closed⟩
      · have h4 := ((hedge2_ne x y hx).mp h1)
        have := ((hedge1 x y).mp h4).2
        exact (hmem3 y).mpr ⟨hyb, this.mem_keys_right hwf.closed⟩
    · rw [hya]
      exact (hmem3 a).mpr ⟨hab, hak⟩
  refine ⟨rfl, hkeys, ⟨hwf3.sorted, hwf3.edges, hwf3.noSelf, hclosed⟩, ?_, ?_⟩
  · intro x y hxa hxb hyb hxy
    apply fold3_edge_mono a b froms g2 hwf2 x y hyb
    rw [hedge2_ne x y hxa, hedge1]
    exact ⟨hxb, hxy⟩
  · intro y hya hby
    have hybes : y ∈ bEs := by
      unfold Edge at hby
      rw [hsb] at hby
      exact hby
    have hyb : y ≠ b := hbes_ne_b y hybes
    apply fold3_edge_mono a b froms g2 hwf2 a y hyb
    rw [hedge2a]
    exact Or.inl ⟨hybes, hya⟩

/-- Either a `collapse_pair` call leaves the graph unchanged, or its guard
conditions hold (and it reports success). -/
theorem collapsePair_cases (g : Graph) (a b : Nat) :
    (g.collapsePair a b).2 = g ∨
      ((g.collapsePair a b).1 = true ∧ a ≠ b ∧ b ∈ keysOf g ∧
        (Edge g a b ∨ Edge g b a)) := by
  by_cases hab : a = b
  · left
    apply collapsePair_false_eq
    simp [Graph.collapsePair, if_pos hab]
  · rcases hla : mapLookup g.nodes a with _ | aEs <;>
      rcases hlb : mapLookup g.nodes b with _ | bEs
    · left
      apply collapsePair_false_eq
      simp [Graph.collapsePair, if_neg hab, hla, hlb]
    · left
      apply collapsePair_false_eq
      simp [Graph.collapsePair, if_neg hab, hla, hlb]
    · left
      apply collapsePair_false_eq
      simp [Graph.collapsePair, if_neg hab, hla, hlb]
    · by_cases hcon : b ∈ aEs ∨ a ∈ bEs
      · right
        have hsa : g.succsD a = aEs := by unfold Graph.succsD; rw [hla]; rfl
        have hsb : g.succsD b = bEs := by unfold Graph.succsD; rw [hlb]; rfl
        refine ⟨by rw [collapsePair_eq_of hab hla hlb hcon], hab,
          mapLookup_isSome.mp (by simp [hlb]), ?_⟩
        rcases hcon with h | h
        · exact Or.inl (show Edge g a b by unfold Edge; rw [hsa]; exact h)
        · exact Or.inr (show Edge g b a by unfold Edge; rw [hsb]; exact h)
      · left
        apply collapsePair_false_eq
        simp [Graph.collapsePair, if_neg hab, hla, hlb, if_neg hcon]

/-- `collapse_pair` preserves well-formedness for arbitrary arguments. -/
theorem collapsePair_WF {g : Graph} (hwf : WF g) (a b : Nat) :
    WF (g.collapsePair a b).2 := by
  rcases collapsePair_cases g a b with h | ⟨_, hab, hbk, hcon⟩
  · rw [h]; exact hwf
  · exact (collapsePair_spec hwf hab hbk hcon).2.2.1

/-! ### Chains of edges -/

theorem chain_prefix {R : Nat → Nat → Prop} :
    ∀ (a : Nat) (l l' : List Nat), List.Chain R a (l ++ l') → List.Chain R a l := by
  intro a l
  induction l generalizing a with
  | nil => intro l' _; exact List.Chain.nil
  | cons x xs ih =>
    intro l' h
    rcases List.chain_cons.mp h with ⟨h1, h2⟩
    exact List.chain_cons.mpr ⟨h1, ih x l' h2⟩

theorem chain_mem_target {R : Nat → Nat → Prop} :
    ∀ (a : Nat) (l : List Nat), List.Chain R a l → ∀ x ∈ l, ∃ y, R y x := by
  intro a l
  induction l generalizing a with
  | nil => intro _ x hx; cases hx
  | cons z zs ih =>
    intro h x hx
    rcases List.chain_cons.mp h with ⟨h1, h2⟩
    rcases List.mem_cons.mp hx with rfl | hx
    · exact ⟨a, h1⟩
    · exact ih z h2 x hx

theorem chain_preserve {g g' : Graph} (P : Nat → Prop)
    (hR : ∀ x y, P x → P y → Edge g x y → Edge g' x y) :
    ∀ (a : Nat) (l : List Nat), P a → (∀ x ∈ l, P x) →
      List.Chain (Edge g) a l → List.Chain (Edge g') a l := by
  intro a l
  induction l generalizing a with
  | nil => intro _ _ _; exact List.Chain.nil
  | cons x xs ih =>
    intro ha hl h
    rcases List.chain_cons.mp h with ⟨h1, h2⟩
    refine List.chain_cons.mpr ⟨hR a x ha (hl x (List.mem_cons_self _ _)) h1, ?_⟩
    exact ih x (hl x (List.mem_cons_self _ _))
      (fun z hz => hl z (List.mem_cons_of_mem _ hz)) h2

/-- `check_cycle` holds exactly when the stored sequence is a closed chain
of edges. -/
theorem cyclicPairs_all_iff (g : Graph) :
    ∀ (l : List Nat) (a z : Nat),
      (((a :: l).zip (l ++ [z])).all (fun p => g.edgeB p.1 p.2) = true ↔
        List.Chain (Edge g) a (l ++ [z])) := by
  intro l
  induction l with
  | nil =>
    intro a z
    simp [List.chain_singleton, edgeB_iff_Edge]
  | cons x l' ih =>
    intro a z
    rw [List.cons_append, List.zip_cons_cons, List.all_cons, List.chain_cons,
      Bool.and_eq_true, edgeB_iff_Edge]
    exact and_congr_right (fun _ => ih x z)

theorem checkCycle_iff_chain (g : Graph) {c : Cycle} {first : Nat} {rest : List Nat}
    (hv : c.val = first :: rest) :
    (g.checkCycle c = true ↔ List.Chain (Edge g) first (rest ++ [first])) := by
  unfold Graph.checkCycle
  rw [hv]
  show ((cyclicPairs (first :: rest)).all fun p => g.edgeB p.1 p.2) = true ↔ _
  unfold cyclicPairs
  exact cyclicPairs_all_iff g rest first first

/-! ### Collapsing a whole cycle -/

theorem foldl_erase_length :
    ∀ (todo ks : List Nat), ks.Nodup → todo.Nodup → (∀ n ∈ todo, n ∈ ks) →
      (todo.foldl (fun ks n => ks.erase n) ks).length = ks.length - todo.length ∧
        todo.length ≤ ks.length := by
  intro todo
  induction todo with
  | nil => intro ks _ _ _; simp
  | cons n todo' ih =>
    intro ks hknd hnd hsub
    have hn : n ∈ ks := hsub n (List.mem_cons_self _ _)
    have hlen : (ks.erase n).length + 1 = ks.length := List.length_erase_add_one hn
    have hnd' : todo'.Nodup := (List.nodup_cons.mp hnd).2
    have hnot : n ∉ todo' := (List.nodup_cons.mp hnd).1
    have hsub' : ∀ m ∈ todo', m ∈ ks.erase n := by
      intro m hm
      exact hknd.mem_erase_iff.mpr
        ⟨fun hmn => hnot (hmn ▸ hm), hsub m (List.mem_cons_of_mem _ hm)⟩
    rcases ih (ks.erase n) (hknd.erase n) hnd' hsub' with ⟨h1, h2⟩
    constructor
    · simp only [List.foldl_cons, h1, List.length_cons]
      omega
    · simp only [List.length_cons]
      omega

/-- The main induction for `collapse_cycle`: collapsing the members of a
chain hanging off `first` succeeds step by step, removes exactly the
processed nodes, and preserves well-formedness. -/
theorem collapseChain (first : Nat) :
    ∀ (todo : List Nat) (acc : Graph) (bb : Bool),
      WF acc → (first :: todo).Nodup → first ∈ keysOf acc →
      (∀ n ∈ todo, n ∈ keysOf acc) →
      List.Chain (Edge acc) first todo →
      WF (todo.foldl (fun acc node => (acc.collapsePair first node).2) acc) ∧
      keysOf (todo.foldl (fun acc node => (acc.collapsePair first node).2) acc) =
        todo.foldl (fun ks n => ks.erase n) (keysOf acc) ∧
      (todo.foldl (fun (p : Bool × Graph) node =>
          let r := p.2.collapsePair first node
          (p.1 && r.1, r.2)) (bb, acc)) =
        (bb, todo.foldl (fun acc node => (acc.collapsePair first node).2) acc) := by
  intro todo
  induction todo with
  | nil =>
    intro acc bb hwf _ _ _ _
    exact ⟨hwf, rfl, rfl⟩
  | cons n todo' ih =>
    intro acc bb hwf hnd hfk htk hchain
    rcases List.chain_cons.mp hchain with ⟨hedge, hchain'⟩
    have hfn : first ≠ n := by
      have := (List.nodup_cons.mp hnd).1
      exact fun h => this (h ▸ List.mem_cons_self _ _)
    have hnk : n ∈ keysOf acc := htk n (List.mem_cons_self _ _)
    obtain ⟨htrue, hkeys, hwf', hmono, hnew⟩ :=
      collapsePair_spec hwf hfn hnk (Or.inl hedge)
    set acc' := (acc.collapsePair first n).2 with hacc'
    have hKnd : (keysOf acc).Nodup := keysNodup hwf.sorted
    have hnot_n_todo' : n ∉ todo' := by
      have := (List.nodup_cons.mp (List.nodup_cons.mp hnd).2).1
      exact this
    have hnd' : (first :: todo').Nodup := by
      rcases List.nodup_cons.mp hnd with ⟨hf, hrest⟩
      rcases List.nodup_cons.mp hrest with ⟨_, hrest'⟩
      exact List.nodup_cons.mpr
        ⟨fun h => hf (List.mem_cons_of_mem _ h), hrest'⟩
    have hfk' : first ∈ keysOf acc' := by
      rw [hkeys]
      exact hKnd.mem_erase_iff.mpr ⟨hfn, hfk⟩
    have htk' : ∀ m ∈ todo', m ∈ keysOf acc' := by
      intro m hm
      rw [hkeys]
      exact hKnd.mem_erase_iff.mpr
        ⟨fun h => hnot_n_todo' (h ▸ hm), htk m (List.mem_cons_of_mem _ hm)⟩
    have hchain'' : List.Chain (Edge acc') first todo' := by
      rcases todo' with _ | ⟨m, todo''⟩
      · exact List.Chain.nil
      · rcases List.chain_cons.mp hchain' with ⟨hnm, hch⟩
        have hnn : ∀ x ∈ first :: n :: m :: todo'', ∀ y ∈ first :: n :: m :: todo'',
            x ≠ y → True := fun _ _ _ _ _ => trivial
        have hmf : m ≠ first := by
          rcases List.nodup_cons.mp hnd with ⟨hf, _⟩
          exact fun h => hf (h ▸ List.mem_cons_of_mem n (List.mem_cons_self _ _))
        refine List.chain_cons.mpr ⟨hnew m hmf hnm, ?_⟩
        have hP : ∀ x ∈ m :: todo'', x ≠ first ∧ x ≠ n := by
          intro x hx
          rcases List.nodup_cons.mp hnd with ⟨hf, hrest⟩
          rcases List.nodup_cons.mp hrest with ⟨hn2, _⟩
          constructor
          · exact fun h => hf (h ▸ List.mem_cons_of_mem n hx)
          · exact fun h => hn2 (h ▸ hx)
        refine chain_preserve (fun x => x ≠ first ∧ x ≠ n)
          (fun x y hx hy he => hmono x y hx.1 hx.2 hy.2 he) m todo''
          (hP m (List.mem_cons_self _ _))
          (fun z hz => hP z (List.mem_cons_of_mem _ hz)) hch
    obtain ⟨hwfR, hkeysR, hflagR⟩ := ih acc' bb hwf' hnd' hfk' htk' hchain''
    refine ⟨by simpa using hwfR, ?_, ?_⟩
    · simp only [List.foldl_cons]
      rw [hkeysR, hkeys]
    · simp only [List.foldl_cons, htrue]
      simpa [Bool.and_true] using hflagR

theorem collapseCycle_eq_of {g : Graph} {c : Cycle} {first : Nat} {rest : List Nat}
    (hchk : g.checkCycle c = true) (hv : c.val = first :: rest) :
    g.collapseCycle c =
      (true, rest.foldl (fun acc node => (acc.collapsePair first node).2) g) := by
  simp only [Graph.collapseCycle, if_pos hchk, hv]

theorem collapseCyclePairsOk_eq_of {g : Graph} {c : Cycle} {first : Nat}
    {rest : List Nat} (hchk : g.checkCycle c = true) (hv : c.val = first :: rest) :
    g.collapseCyclePairsOk c =
      (rest.foldl (fun (p : Bool × Graph) node =>
        let r := p.2.collapsePair first node
        (p.1 && r.1, r.2)) (true, g)).1 := by
  simp only [Graph.collapseCyclePairsOk, if_pos hchk, hv]

/-- The full effect of a successful `collapse_cycle` on a well-formed
graph: all inner `collapse_pair` calls succeed and exactly the non-head
cycle nodes are removed. -/
theorem collapseCycle_spec {g : Graph} (hwf : WF g) {c : Cycle}
    (hchk : g.checkCycle c = true) :
    (g.collapseCycle c).1 = true ∧
    g.collapseCyclePairsOk c = true ∧
    WF (g.collapseCycle c).2 ∧
    (g.collapseCycle c).2.nodes.length = g.nodes.length - (c.val.length - 1) ∧
    (g.collapseCycle c).2.nodes.length < g.nodes.length := by
  rcases hv : c.val with _ | ⟨first, rest⟩
  · have := c.two_le
    rw [hv] at this
    simp at this
  have hrest_ne : rest ≠ [] := by
    have := c.two_le
    rw [hv] at this
    intro h
    rw [h] at this
    simp at this
  have hchain0 : List.Chain (Edge g) first (rest ++ [first]) :=
    (checkCycle_iff_chain g hv).mp hchk
  have hchain : List.Chain (Edge g) first rest := chain_prefix first rest [first] hchain0
  have hnd : (first :: rest).Nodup := hv ▸ c.nodup
  have hfk : first ∈ keysOf g := by
    rcases rest with _ | ⟨r0, rest'⟩
    · exact absurd rfl hrest_ne
    · exact (List.chain_cons.mp hchain).1.mem_keys
  have htk : ∀ n ∈ rest, n ∈ keysOf g := by
    intro n hn
    rcases chain_mem_target first rest hchain n hn with ⟨y, hy⟩
    exact hy.mem_keys_right hwf.closed
  obtain ⟨hwfR, hkeysR, hflagR⟩ := collapseChain first rest g true hwf hnd hfk htk hchain
  have heq := collapseCycle_eq_of hchk hv
  have heq2 := collapseCyclePairsOk_eq_of hchk hv
  have hKnd : (keysOf g).Nodup := keysNodup hwf.sorted
  have hrest_nd : rest.Nodup := (List.nodup_cons.mp hnd).2
  rcases foldl_erase_length rest (keysOf g) hKnd hrest_nd htk with ⟨hlen, hle⟩
  have hkeylen : ∀ h : Graph, (keysOf h).length = h.nodes.length := by
    intro h
    unfold keysOf
    exact List.length_map _ _
  have hL : (g.collapseCycle c).2.nodes.length = g.nodes.length - rest.length := by
    rw [heq, ← hkeylen, hkeysR, hlen, hkeylen]
  refine ⟨by rw [heq], by rw [heq2, hflagR], by rw [heq]; exact hwfR, ?_, ?_⟩
  · rw [hL]
    simp
  · rw [hL]
    have hrl : 1 ≤ rest.length := by
      rcases rest with _ | ⟨r0, rest'⟩
      · exact absurd rfl hrest_ne
      · simp
    have : rest.length ≤ g.nodes.length := by rw [← hkeylen]; exact hle
    omega

/-! ### Closed chains and rotation -/

theorem chain_snoc' {R : Nat → Nat → Prop} :
    ∀ (a : Nat) (l : List Nat) (w z : Nat), List.Chain R a l →
      (a :: l).getLast? = some w → R w z → List.Chain R a (l ++ [z]) := by
  intro a l
  induction l generalizing a with
  | nil =>
    intro w z _ hlast hr
    cases hlast
    exact List.chain_singleton.mpr hr
  | cons x xs ih =>
    intro w z h hlast hr
    rcases List.chain_cons.mp h with ⟨hax, hch⟩
    refine List.chain_cons.mpr ⟨hax, ?_⟩
    exact ih x w z hch (by simpa using hlast) hr

/-- The stored sequence of a cycle read as a closed chain of edges. -/
def ClosedChain (g : Graph) : List Nat → Prop
  | [] => True
  | x :: r => List.Chain (Edge g) x (r ++ [x])

theorem checkCycle_iff_closedChain (g : Graph) (c : Cycle) :
    g.checkCycle c = true ↔ ClosedChain g c.val := by
  rcases hv : c.val with _ | ⟨x, r⟩
  · unfold Graph.checkCycle
    rw [hv]
    simp [cyclicPairs, ClosedChain]
  · rw [checkCycle_iff_chain g hv]
    rfl

theorem closedChain_rotate_one (g : Graph) :
    ∀ l, ClosedChain g l → ClosedChain g (l.rotate 1) := by
  intro l h
  rcases l with _ | ⟨x, r⟩
  · simpa using h
  · rw [List.rotate_cons_succ, List.rotate_zero]
    rcases r with _ | ⟨y, r'⟩
    · simpa using h
    · show List.Chain (Edge g) y ((r' ++ [x]) ++ [y])
      have h' : List.Chain (Edge g) x (y :: (r' ++ [x])) := h
      rcases List.chain_cons.mp h' with ⟨hxy, hch⟩
      apply chain_snoc' y (r' ++ [x]) x y hch _ hxy
      show (y :: (r' ++ [x])).getLast? = some x
      have : y :: (r' ++ [x]) = (y :: r') ++ [x] := by simp
      rw [this]
      exact List.getLast?_concat _

theorem closedChain_rotate (g : Graph) (n : Nat) :
    ∀ l, ClosedChain g l → ClosedChain g (l.rotate n) := by
  induction n with
  | zero => intro l h; simpa [List.rotate_zero] using h
  | succ n ih =>
    intro l h
    have : l.rotate (n + 1) = (l.rotate 1).rotate n := by
      rw [List.rotate_rotate]
      congr 1
      omega
    rw [this]
    exact ih _ (closedChain_rotate_one g l h)

theorem cycleNew_some_val {L : List Nat} {c : Cycle} (h : Cycle.new L = some c) :
    c.val = L.rotate (argminIdx L) := by
  by_cases hc : L.Nodup ∧ 2 ≤ L.length
  · rcases cycleNew_val hc.1 hc.2 with ⟨c', hc', hval⟩
    rw [hc'] at h
    cases h
    exact hval
  · rw [cycle_new_none_iff L |>.mpr] at h
    · cases h
    · rcases Decidable.not_and_iff_or_not.mp hc with h1 | h1
      · exact Or.inl h1
      · exact Or.inr (by omega)

/-! ### Soundness of the DFS: any returned cycle checks out -/

theorem search_sound (g : Graph) :
    ∀ (fuel : Nat) (anc v l : List Nat) (c : Cycle) (v' : List Nat) (la : Nat),
      g.search fuel anc v l = (some c, v') →
      anc.getLast? = some la →
      (∀ x ∈ l, Edge g la x) →
      List.Chain' (Edge g) anc →
      g.checkCycle c = true := by
  intro fuel
  induction fuel with
  | zero =>
    intro anc v l c v' la h
    cases h
  | succ fuel ih =>
    intro anc v l c v' la h hlast hsucc hchain
    rcases l with _ | ⟨x, rest⟩
    · cases h
    · rw [Graph.search] at h
      rcases hpos : posOf? anc x with _ | i
      · rw [hpos] at h
        rcases hdeep : g.search fuel (anc ++ [x]) (setInsert v x) (g.succsD x)
          with ⟨r, v2⟩
        rw [hdeep] at h
        rcases r with _ | cyc
        · -- deep call found nothing; continue on the rest of the successors
          exact ih anc v2 rest c v' la h hlast
            (fun y hy => hsucc y (List.mem_cons_of_mem _ hy)) hchain
        · -- deep call found the cycle
          have hcyc : g.checkCycle cyc = true := by
            apply ih (anc ++ [x]) (setInsert v x) (g.succsD x) cyc v2 x hdeep
            · exact List.getLast?_concat anc
            · intro y hy
              exact hy
            · -- the extended ancestor stack is still a chain
              rcases anc with _ | ⟨a0, anc'⟩
              · cases hlast
              · show List.Chain (Edge g) a0 (anc' ++ [x])
                exact chain_snoc' a0 anc' la x hchain hlast
                  (hsucc x (List.mem_cons_self _ _))
          cases h
          exact hcyc
      · -- a cycle was detected in the ancestor stack
        rw [hpos] at h
        have hnew : Cycle.new (anc.drop i) = some c := congrArg Prod.fst h
        have hget : anc.get? i = some x := posOf?_some hpos
        rcases List.get?_eq_some.mp hget with ⟨hilt, hgeti⟩
        have hielem : anc[i] = x := hgeti
        have hdrop : anc.drop i = x :: anc.drop (i + 1) := by
          rw [List.drop_eq_getElem_cons hilt, hielem]
        have hsuffix : (anc.drop i).IsSuffix anc := List.drop_suffix i anc
        have hchain_drop : List.Chain' (Edge g) (anc.drop i) :=
          hchain.suffix hsuffix
        have hlast_drop : (anc.drop i).getLast? = some la := by
          rcases hsuffix with ⟨pre, hpre⟩
          rw [← hpre] at hlast
          rw [← hlast]
          symm
          apply List.getLast?_append_of_ne_nil
          rw [hdrop]
          simp
        have hcc : ClosedChain g (anc.drop i) := by
          rw [hdrop]
          show List.Chain (Edge g) x (anc.drop (i + 1) ++ [x])
          have hch : List.Chain (Edge g) x (anc.drop (i + 1)) := by
            have := hchain_drop
            rw [hdrop] at this
            exact this
          apply chain_snoc' x (anc.drop (i + 1)) la x hch _
            (hsucc x (List.mem_cons_self _ _))
          rw [← hdrop]
          exact hlast_drop
        rw [checkCycle_iff_closedChain]
        rw [cycleNew_some_val hnew]
        exact closedChain_rotate g _ _ hcc

theorem findCycleLoop_sound (g : Graph) :
    ∀ (ks v : List Nat) (c : Cycle),
      g.findCycleLoop v ks = some c → g.checkCycle c = true := by
  intro ks
  induction ks with
  | nil => intro v c h; cases h
  | cons k rest ih =>
    intro v c h
    rw [Graph.findCycleLoop] at h
    by_cases hk : k ∈ v
    · rw [if_pos hk] at h
      exact ih v c h
    · rw [if_neg hk] at h
      rcases hs : g.search g.searchFuel [k] (setInsert v k) (g.succsD k)
        with ⟨r, v2⟩
      rw [hs] at h
      rcases r with _ | cyc
      · exact ih v2 c h
      · cases h
        apply search_sound g g.searchFuel [k] (setInsert v k) (g.succsD k) c v2 k hs
        · rfl
        · intro y hy; exact hy
        · exact List.chain'_singleton k

/-- C4: any cycle returned by `find_cycle` passes `check_cycle` on the same
graph. -/
theorem findCycle_sound (g : Graph) (c : Cycle) (h : g.findCycle = some c) :
    g.checkCycle c = true :=
  findCycleLoop_sound g (keysOf g) [] c h

/-- A fixed three-element cycle used in concrete instantiations. -/
def cyc123 : Cycle := ⟨[1, 2, 3], by decide, by decide⟩

/-- C4 witness instance: the cycle found on the 3-cycle graph checks out. -/
theorem findCycle_sound_witness : threeCycleGraph.checkCycle cyc123 = true :=
  findCycle_sound threeCycleGraph cyc123 (by decide)

/-- C10: if `check_cycle` holds on a well-formed graph, every
`collapse_pair` call performed inside `collapse_cycle` returns `true`, and
`collapse_cycle` removes exactly `len(c) - 1` nodes. -/
theorem collapse_cycle_pairs_all_true (g : Graph) (c : Cycle) (hwf : WF g)
    (hchk : g.checkCycle c = true) :
    g.collapseCyclePairsOk c = true ∧
    (g.collapseCycle c).2.nodes.length = g.nodes.length - (c.val.length - 1) := by
  obtain ⟨_, h2, _, h4, _⟩ := collapseCycle_spec hwf hchk
  exact ⟨h2, h4⟩

/-- C10 witness instance: collapsing the cycle `[1,2,3]` on the 3-cycle
graph. -/
theorem collapse_cycle_pairs_all_true_witness :
    Graph.collapseCyclePairsOk threeCycleGraph cyc123 = true ∧
    (Graph.collapseCycle threeCycleGraph cyc123).2.nodes.length =
      threeCycleGraph.nodes.length - (cyc123.val.length - 1) :=
  collapse_cycle_pairs_all_true threeCycleGraph cyc123 (by decide) (by decide)

/-! ### The effect of `cleanup` -/

theorem mapLookup_foldRemove :
    ∀ (ks : List Nat) (m : List (Nat × List Nat)),
      List.Pairwise (· < ·) (m.map (fun p => p.1)) → ∀ x,
      mapLookup (ks.foldl (fun m n => mapRemove m n) m) x =
        if x ∈ ks then none else mapLookup m x := by
  intro ks
  induction ks with
  | nil => intro m _ x; simp
  | cons n ks' ih =>
    intro m hm x
    have hm' : List.Pairwise (· < ·) ((mapRemove m n).map (fun p => p.1)) :=
      mapRemove_sorted hm n
    simp only [List.foldl_cons]
    rw [ih (mapRemove m n) hm' x]
    by_cases hx : x ∈ ks'
    · rw [if_pos hx, if_pos (List.mem_cons_of_mem _ hx)]
    · rw [if_neg hx, mapLookup_mapRemove hm]
      by_cases hxn : x = n
      · rw [if_pos hxn, if_pos (hxn ▸ List.mem_cons_self _ _)]
      · rw [if_neg hxn, if_neg (by simp [hxn, hx])]

theorem foldRemove_entry :
    ∀ (ks : List Nat) (m : List (Nat × List Nat)) (p : Nat × List Nat),
      p ∈ ks.foldl (fun m n => mapRemove m n) m → p ∈ m := by
  intro ks
  induction ks with
  | nil => intro m p h; exact h
  | cons n ks' ih =>
    intro m p h
    simp only [List.foldl_cons] at h
    exact (mapRemove_sublist m n).mem (ih (mapRemove m n) p h)

/-- The set of nodes that `cleanup` removes. -/
theorem mem_cleanup_toRemove {g : Graph} (n : Nat) :
    (n ∈ (g.nodes.filter (fun p =>
        ((mapLookup g.nodes p.1).getD []).isEmpty && (g.toList p.1).isEmpty)).map
        (fun p => p.1)) ↔
      n ∈ keysOf g ∧ g.succsD n = [] ∧ g.toList n = [] := by
  rw [List.mem_map]
  constructor
  · rintro ⟨p, hp, rfl⟩
    rcases List.mem_filter.mp hp with ⟨hmem, hpred⟩
    rw [Bool.and_eq_true] at hpred
    rcases hpred with ⟨h1, h2⟩
    refine ⟨List.mem_map_of_mem _ hmem, ?_, List.isEmpty_iff.mp h2⟩
    have := List.isEmpty_iff.mp h1
    unfold Graph.succsD
    exact this
  · rintro ⟨hmem, h1, h2⟩
    rcases List.mem_map.mp hmem with ⟨p, hp, rfl⟩
    refine ⟨p, List.mem_filter.mpr ⟨hp, ?_⟩, rfl⟩
    rw [Bool.and_eq_true]
    constructor
    · exact List.isEmpty_iff.mpr h1
    · exact List.isEmpty_iff.mpr h2

theorem succsD_cleanup {g : Graph} (hs : KeysSorted g) (x : Nat) :
    g.cleanup.succsD x =
      if g.succsD x = [] ∧ g.toList x = [] then [] else g.succsD x := by
  unfold Graph.cleanup Graph.succsD
  rw [mapLookup_foldRemove _ g.nodes hs x]
  by_cases hx : x ∈ (g.nodes.filter (fun p =>
      ((mapLookup g.nodes p.1).getD []).isEmpty && (g.toList p.1).isEmpty)).map
      (fun p => p.1)
  · rcases (mem_cleanup_toRemove x).mp hx with ⟨_, h1, h2⟩
    rw [if_pos hx, if_pos ⟨h1, h2⟩]
    rfl
  · rw [if_neg hx]
    by_cases hcond : (mapLookup g.nodes x).getD [] = [] ∧ g.toList x = []
    · by_cases hmem : x ∈ keysOf g
      · exact absurd ((mem_cleanup_toRemove x).mpr ⟨hmem, hcond.1, hcond.2⟩) hx
      · rw [if_pos hcond, mapLookup_eq_none.mpr hmem]
        rfl
    · rw [if_neg hcond]

theorem Edge_cleanup_iff {g : Graph} (hs : KeysSorted g) (x y : Nat) :
    Edge g.cleanup x y ↔ ¬(g.succsD x = [] ∧ g.toList x = []) ∧ Edge g x y := by
  unfold Edge
  rw [succsD_cleanup hs x]
  by_cases hc : g.succsD x = [] ∧ g.toList x = []
  · simp [hc]
  · simp [hc]

theorem mem_keys_cleanup {g : Graph} (hs : KeysSorted g) (x : Nat) :
    x ∈ keysOf g.cleanup ↔
      x ∈ keysOf g ∧ ¬(g.succsD x = [] ∧ g.toList x = []) := by
  have hlk : mapLookup g.cleanup.nodes x =
      if x ∈ (g.nodes.filter (fun p =>
          ((mapLookup g.nodes p.1).getD []).isEmpty && (g.toList p.1).isEmpty)).map
          (fun p => p.1) then none else mapLookup g.nodes x :=
    mapLookup_foldRemove _ g.nodes hs x
  by_cases hx : x ∈ (g.nodes.filter (fun p =>
      ((mapLookup g.nodes p.1).getD []).isEmpty && (g.toList p.1).isEmpty)).map
      (fun p => p.1)
  · rw [if_pos hx] at hlk
    rcases (mem_cleanup_toRemove x).mp hx with ⟨_, h1, h2⟩
    constructor
    · intro h
      have h3 := mapLookup_isSome.mpr h
      rw [hlk] at h3
      cases h3
    · rintro ⟨_, hnc⟩
      exact absurd ⟨h1, h2⟩ hnc
  · rw [if_neg hx] at hlk
    constructor
    · intro h
      have h1 := mapLookup_isSome.mpr h
      rw [hlk] at h1
      have hg : x ∈ keysOf g := mapLookup_isSome.mp h1
      refine ⟨hg, ?_⟩
      intro hc
      exact hx ((mem_cleanup_toRemove x).mpr ⟨hg, hc.1, hc.2⟩)
    · rintro ⟨hmem, _⟩
      have h1 : (mapLookup g.cleanup.nodes x).isSome := by
        rw [hlk]
        exact mapLookup_isSome.mpr hmem
      exact mapLookup_isSome.mp h1

theorem foldRemove_sorted :
    ∀ (ks : List Nat) (m : List (Nat × List Nat)),
      List.Pairwise (· < ·) (m.map (fun p => p.1)) →
      List.Pairwise (· < ·)
        ((ks.foldl (fun m n => mapRemove m n) m).map (fun p => p.1)) := by
  intro ks
  induction ks with
  | nil => intro m hm; exact hm
  | cons n ks' ih =>
    intro m hm
    simp only [List.foldl_cons]
    exact ih (mapRemove m n) (mapRemove_sorted hm n)

theorem cleanup_WF {g : Graph} (h : WF g) : WF g.cleanup := by
  have hs' : KeysSorted g.cleanup := foldRemove_sorted _ g.nodes h.sorted
  refine ⟨hs', ?_, ?_, ?_⟩
  · intro p hp
    exact h.edges p (foldRemove_entry _ g.nodes p hp)
  · intro p hp
    exact h.noSelf p (foldRemove_entry _ g.nodes p hp)
  · apply closed_of_edges hs'
    intro x y hxy
    rcases (Edge_cleanup_iff h.sorted x y).mp hxy with ⟨_, hedge⟩
    have hy : y ∈ keysOf g := hedge.mem_keys_right h.closed
    apply (mem_keys_cleanup h.sorted y).mpr
    refine ⟨hy, ?_⟩
    rintro ⟨_, htl⟩
    have hx : x ∈ g.toList y := (mem_toList_iff_edge h.sorted).mpr hedge
    rw [htl] at hx
    cases hx

theorem cleanup_idem {g : Graph} (h : WF g) : g.cleanup.cleanup = g.cleanup := by
  have hcwf : WF g.cleanup := cleanup_WF h
  have hempty : (g.cleanup.nodes.filter (fun p =>
      ((mapLookup g.cleanup.nodes p.1).getD []).isEmpty &&
        (g.cleanup.toList p.1).isEmpty)) = [] := by
    rw [List.filter_eq_nil_iff]
    intro p hp hpred
    rw [Bool.and_eq_true] at hpred
    rcases hpred with ⟨hA, hB⟩
    have hA' : g.cleanup.succsD p.1 = [] := List.isEmpty_iff.mp hA
    have hB' : g.cleanup.toList p.1 = [] := List.isEmpty_iff.mp hB
    have hpk : p.1 ∈ keysOf g.cleanup := List.mem_map_of_mem _ hp
    rcases (mem_keys_cleanup h.sorted p.1).mp hpk with ⟨hpg, hkeep⟩
    by_cases hsg : g.succsD p.1 = []
    · -- some edge enters p.1 in g, and its source survives cleanup
      have htl : g.toList p.1 ≠ [] := fun hc => hkeep ⟨hsg, hc⟩
      rcases List.exists_mem_of_ne_nil _ htl with ⟨y, hy⟩
      have hyedge : Edge g y p.1 := (mem_toList_iff_edge h.sorted).mp hy
      have hykeep : ¬(g.succsD y = [] ∧ g.toList y = []) := by
        rintro ⟨hys, _⟩
        unfold Edge at hyedge
        rw [hys] at hyedge
        cases hyedge
      have hyc : Edge g.cleanup y p.1 :=
        (Edge_cleanup_iff h.sorted y p.1).mpr ⟨hykeep, hyedge⟩
      have hym : y ∈ g.cleanup.toList p.1 :=
        (mem_toList_iff_edge hcwf.sorted).mpr hyc
      rw [hB'] at hym
      cases hym
    · have hsc : g.cleanup.succsD p.1 = g.succsD p.1 := by
        rw [succsD_cleanup h.sorted, if_neg hkeep]
      rw [hA'] at hsc
      exact hsg hsc.symm
  show (⟨((g.cleanup.nodes.filter (fun p =>
      ((mapLookup g.cleanup.nodes p.1).getD []).isEmpty &&
        (g.cleanup.toList p.1).isEmpty)).map (fun p => p.1)).foldl
      (fun m n => mapRemove m n) g.cleanup.nodes⟩ : Graph) = g.cleanup
  rw [hempty]
  rfl

/-! ### Well-formedness of every public operation -/

theorem foldCollapse_WF (first : Nat) :
    ∀ (rest : List Nat) (acc : Graph), WF acc →
      WF (rest.foldl (fun acc node => (acc.collapsePair first node).2) acc) := by
  intro rest
  induction rest with
  | nil => intro acc h; exact h
  | cons n rest' ih =>
    intro acc h
    simp only [List.foldl_cons]
    exact ih _ (collapsePair_WF h first n)

theorem collapseCycle_WF {g : Graph} (h : WF g) (c : Cycle) :
    WF (g.collapseCycle c).2 := by
  by_cases hchk : g.checkCycle c
  · rcases hv : c.val with _ | ⟨first, rest⟩
    · have : (g.collapseCycle c).2 = g := by
        simp [Graph.collapseCycle, if_pos hchk, hv]
      rw [this]
      exact h
    · rw [collapseCycle_eq_of hchk hv]
      exact foldCollapse_WF first rest g h
  · have : (g.collapseCycle c).2 = g := by
      simp [Graph.collapseCycle, hchk]
    rw [this]
    exact h

theorem empty_WF : WF (⟨[]⟩ : Graph) := by decide

theorem subgraphFoldInner_WF (ns : List Nat) (node : Nat) :
    ∀ (ct : List Nat) (acc : Graph), WF acc →
      WF (ct.foldl
        (fun acc2 c => if c ∈ ns then (acc2.connect node c).2 else acc2) acc) := by
  intro ct
  induction ct with
  | nil => intro acc h; exact h
  | cons c ct' ih =>
    intro acc h
    simp only [List.foldl_cons]
    by_cases hc : c ∈ ns
    · rw [if_pos hc]
      exact ih _ (connect_WF h node c)
    · rw [if_neg hc]
      exact ih _ h

theorem subgraphFold_WF (g : Graph) (ns : List Nat) :
    ∀ (l : List Nat) (acc : Graph), WF acc →
      WF (l.foldl (fun acc node =>
        match mapLookup g.nodes node with
        | some connectedTo =>
          connectedTo.foldl
            (fun acc2 c => if c ∈ ns then (acc2.connect node c).2 else acc2) acc
        | none => acc) acc) := by
  intro l
  induction l with
  | nil => intro acc h; exact h
  | cons node l' ih =>
    intro acc h
    simp only [List.foldl_cons]
    rcases hlk : mapLookup g.nodes node with _ | ct
    · exact ih acc h
    · exact ih _ (subgraphFoldInner_WF ns node ct acc h)

theorem subgraph_WF (g : Graph) (ns : List Nat) : WF (g.subgraph ns) :=
  cleanup_WF (subgraphFold_WF g ns ns ⟨[]⟩ empty_WF)

theorem simplifyLoop_WF :
    ∀ (fuel : Nat) (g : Graph) (r : Nat), WF g →
      WF (Graph.simplifyLoop fuel g r).2 := by
  intro fuel
  induction fuel with
  | zero => intro g r h; exact h
  | succ fuel ih =>
    intro g r h
    rw [Graph.simplifyLoop]
    rcases hf : g.findCycle with _ | c
    · exact h
    · exact ih _ _ (collapseCycle_WF h c)

theorem simplify_WF {g : Graph} (h : WF g) : WF (g.simplify).2 :=
  cleanup_WF (simplifyLoop_WF (g.nodes.length + 1) g 0 h)

theorem neededToConnect_WF (g : Graph) : WF g.neededToConnect :=
  subgraph_WF _ _

theorem reachable_WF {g : Graph} (h : Reachable g) : WF g := by
  induction h with
  | empty => exact empty_WF
  | connect g a b _ ih => exact connect_WF ih a b
  | disconnect g a b _ ih => exact disconnect_WF ih a b
  | cleanup g _ ih => exact cleanup_WF ih
  | subgraph g ns _ _ => exact subgraph_WF g ns
  | collapsePair g a b _ ih => exact collapsePair_WF ih a b
  | collapseCycle g c _ ih => exact collapseCycle_WF ih c
  | simplify g _ ih => exact simplify_WF ih
  | neededToConnect g _ _ => exact neededToConnect_WF g

/-- C7: every graph reachable from the empty mapping through the public
operations stores no self-loop and keeps every referenced node present in
the mapping. -/
theorem reachable_invariants (g : Graph) (h : Reachable g) :
    NoSelfLoops g ∧ Closed g :=
  ⟨(reachable_WF h).noSelf, (reachable_WF h).closed⟩

/-- C7 witness instance: the graph built by a single `connect 1 2` from the
empty mapping. -/
theorem reachable_invariants_witness :
    NoSelfLoops ((⟨[]⟩ : Graph).connect 1 2).2 ∧
      Closed ((⟨[]⟩ : Graph).connect 1 2).2 :=
  reachable_invariants _ (Reachable.connect ⟨[]⟩ 1 2 Reachable.empty)

/-! ### A termination measure for the embedded DFS -/

/-- Remaining work of a `search` call: the successors still to scan plus the
weight of every node not yet on the ancestor stack. -/
def searchMeasure (g : Graph) (anc l : List Nat) : Nat :=
  l.length +
    ((g.nodes.filter (fun p => p.1 ∉ anc)).map (fun p => p.2.length + 1)).sum

theorem getLast?_mem' {l : List Nat} {a : Nat} (h : l.getLast? = some a) : a ∈ l := by
  rcases l with _ | ⟨x, xs⟩
  · cases h
  · exact List.mem_of_mem_getLast? (by rw [h]; exact rfl)

theorem nodup_concat {l : List Nat} {a : Nat} (hn : l.Nodup) (h : a ∉ l) :
    (l ++ [a]).Nodup := by
  simp [List.nodup_append, h, hn]

theorem chain_append_chain {R : Nat → Nat → Prop} :
    ∀ (a : Nat) (l : List Nat) (w : Nat) (l' : List Nat),
      List.Chain R a l → (a :: l).getLast? = some w → List.Chain R w l' →
      List.Chain R a (l ++ l') := by
  intro a l
  induction l generalizing a with
  | nil =>
    intro w l' _ hlast hch
    cases hlast
    exact hch
  | cons x xs ih =>
    intro w l' h hlast hch
    rcases List.chain_cons.mp h with ⟨hax, hxs⟩
    exact List.chain_cons.mpr ⟨hax, ih x w l' hxs (by simpa using hlast) hch⟩

theorem reach_to_chain {g : Graph} {a x : Nat}
    (h : Relation.ReflTransGen (Edge g) a x) :
    ∃ q : List Nat, List.Chain (Edge g) a q ∧ (a :: q).getLast? = some x := by
  induction h with
  | refl => exact ⟨[], List.Chain.nil, rfl⟩
  | tail hreach hedge ih =>
    rcases ih with ⟨q, hq, hlast⟩
    refine ⟨q ++ [_], chain_snoc' a q _ _ hq hlast hedge, ?_⟩
    show (a :: (q ++ _)).getLast? = _
    rw [show ∀ z : Nat, a :: (q ++ [z]) = (a :: q) ++ [z] from fun z => rfl]
    exact List.getLast?_concat _

theorem measure_filter_sum_deep {c : Nat} :
    ∀ (m : List (Nat × List Nat)) (anc : List Nat),
      (m.map (fun p => p.1)).Nodup → c ∈ m.map (fun p => p.1) → c ∉ anc →
      ((m.filter (fun p => p.1 ∉ (anc ++ [c]))).map (fun p => p.2.length + 1)).sum +
          ((mapLookup m c).getD []).length + 1 =
        ((m.filter (fun p => p.1 ∉ anc)).map (fun p => p.2.length + 1)).sum := by
  intro m
  induction m with
  | nil => intro anc _ hc _; cases hc
  | cons p rest ih =>
    intro anc hnd hc hca
    obtain ⟨k, es⟩ := p
    simp only [List.map_cons, List.nodup_cons] at hnd
    rcases hnd with ⟨hknr, hrest⟩
    rw [List.map_cons, List.mem_cons] at hc
    by_cases hkc : k = c
    · subst hkc
      -- the entry for `c` is dropped from the new filter and counted apart
      have hagree : ∀ q ∈ rest, (fun p => decide (p.1 ∉ (anc ++ [k]))) q =
          (fun p => decide (p.1 ∉ anc)) q := by
        intro q hq
        have hqk : q.1 ≠ k := fun h => hknr (h ▸ List.mem_map_of_mem _ hq)
        simp only [decide_eq_decide, List.mem_append, List.mem_singleton]
        constructor
        · intro h1 h2
          exact h1 (Or.inl h2)
        · intro h1 h2
          rcases h2 with h2 | h2
          · exact h1 h2
          · exact hqk h2
      rw [List.filter_cons_of_neg (by simp),
        List.filter_cons_of_pos (by simp [hca]), List.filter_congr hagree]
      have hlk : mapLookup ((k, es) :: rest) k = some es := by
        simp [mapLookup]
      rw [hlk]
      simp only [List.map_cons, List.sum_cons, Option.getD_some]
      omega
    · have hc' : c ∈ rest.map (fun p => p.1) := by
        rcases hc with h | h
        · exact absurd h.symm hkc
        · exact h
      have hlk : mapLookup ((k, es) :: rest) c = mapLookup rest c := by
        rw [show mapLookup ((k, es) :: rest) c =
          if c = k then some es else mapLookup rest c from rfl,
          if_neg (fun h => hkc h.symm)]
      rw [hlk]
      by_cases hkanc : k ∈ anc
      · rw [List.filter_cons_of_neg (by simp [hkanc]),
          List.filter_cons_of_neg (by simp [hkanc])]
        exact ih anc hrest hc' hca
      · rw [List.filter_cons_of_pos (by simp [hkanc, hkc]),
          List.filter_cons_of_pos (by simp [hkanc])]
        simp only [List.map_cons, List.sum_cons]
        have := ih anc hrest hc' hca
        omega

theorem searchMeasure_deep {g : Graph} (hwf : WF g) {c : Nat}
    (hck : c ∈ keysOf g) {anc : List Nat} (hca : c ∉ anc) (rest : List Nat) :
    searchMeasure g (anc ++ [c]) (g.succsD c) + 2 + rest.length =
      searchMeasure g anc (c :: rest) := by
  unfold searchMeasure Graph.succsD
  have := measure_filter_sum_deep g.nodes anc (keysNodup hwf.sorted) hck hca
  simp only [List.length_cons]
  rw [← this]
  ring

theorem searchMeasure_root_lt (g : Graph) (k : Nat) :
    searchMeasure g [k] (g.succsD k) < g.searchFuel := by
  unfold searchMeasure Graph.searchFuel
  have h1 : ((g.nodes.filter (fun p => p.1 ∉ [k])).map
      (fun p => p.2.length + 1)).sum ≤ weight g := by
    unfold weight
    exact List.Sublist.sum_le_sum
      ((List.filter_sublist g.nodes).map (fun p => p.2.length + 1))
      (fun x _ => Nat.zero_le x)
  have h2 : (g.succsD k).length ≤ weight g := by
    unfold Graph.succsD weight
    rcases hl : mapLookup g.nodes k with _ | es
    · simp
    · have hmem : (k, es) ∈ g.nodes := mapLookup_mem hl
      have : es.length + 1 ∈ g.nodes.map (fun p => p.2.length + 1) :=
        List.mem_map_of_mem _ hmem
      have := List.single_le_sum (fun x _ => Nat.zero_le x) _ this
      simp only [Option.getD_some]
      omega
  omega

/-! ### Completeness of the DFS, part 1: a rootless search that reports no
cycle admits no repeating walk. -/

theorem search_none_walks (g : Graph) (hwf : WF g) :
    ∀ (fuel : Nat) (anc v l v' : List Nat) (la : Nat),
      g.search fuel anc v l = (none, v') →
      searchMeasure g anc l < fuel →
      anc.Nodup →
      anc.getLast? = some la →
      (∀ x ∈ l, Edge g la x) →
      ∀ c ∈ l, ∀ p, List.Chain (Edge g) c p → (anc ++ c :: p).Nodup := by
  intro fuel
  induction fuel with
  | zero =>
    intro anc v l v' la _ hm
    exact absurd hm (by omega)
  | succ fuel ih =>
    intro anc v l v' la h hm hnd hlast hsucc
    rcases l with _ | ⟨c0, rest⟩
    · intro c hc; cases hc
    · rw [Graph.search] at h
      rcases hpos : posOf? anc c0 with _ | i
      · -- c0 is not on the stack; the search descended into it
        rw [hpos] at h
        have hc0anc : c0 ∉ anc := posOf?_eq_none.mp hpos
        have hc0edge : Edge g la c0 := hsucc c0 (List.mem_cons_self _ _)
        have hc0key : c0 ∈ keysOf g := hc0edge.mem_keys_right hwf.closed
        have hmeq := searchMeasure_deep hwf hc0key hc0anc rest
        rcases hdeep : g.search fuel (anc ++ [c0]) (setInsert v c0) (g.succsD c0)
          with ⟨r, v2⟩
        rw [hdeep] at h
        rcases r with _ | cyc
        · -- both the deep call and the rest of the scan reported nothing
          have hrest : g.search fuel anc v2 rest = (none, v') := h
          have ihdeep := ih (anc ++ [c0]) (setInsert v c0) (g.succsD c0) v2 c0
            hdeep (by omega) (nodup_concat hnd hc0anc)
            (List.getLast?_concat anc) (fun x hx => hx)
          have ihrest := ih anc v2 rest v' la hrest (by
              have : searchMeasure g anc rest + 1 = searchMeasure g anc (c0 :: rest) := by
                unfold searchMeasure
                simp [List.length_cons]
                omega
              omega)
            hnd hlast (fun x hx => hsucc x (List.mem_cons_of_mem _ hx))
          intro c hc p hp
          rcases List.mem_cons.mp hc with rfl | hc
          · -- a walk from c0 itself
            rcases p with _ | ⟨d, p'⟩
            · simpa using nodup_concat hnd hc0anc
            · rcases List.chain_cons.mp hp with ⟨hcd, hch⟩
              have := ihdeep d hcd p' hch
              simpa [List.append_assoc] using this
          · exact ihrest c hc p hp
        · cases h
      · -- c0 was found on the stack: the returned cycle must be degenerate,
        -- which the no-self-loop invariant rules out
        rw [hpos] at h
        have hnew : Cycle.new (anc.drop i) = none := congrArg Prod.fst h
        have hdnd : (anc.drop i).Nodup := hnd.sublist (List.drop_sublist i anc)
        have hilt : i < anc.length := posOf?_lt_length hpos
        rcases (cycle_new_none_iff _).mp hnew with hbad | hbad
        · exact absurd hdnd hbad
        · have hlen : (anc.drop i).length = anc.length - i := List.length_drop i anc
          have hi : i = anc.length - 1 := by omega
          have hget : anc.get? i = some c0 := posOf?_some hpos
          have hlast' : anc.getLast? = some c0 := by
            rw [List.getLast?_eq_getElem?, ← List.get?_eq_getElem?, ← hi]
            exact hget
          have hlac0 : la = c0 := by
            rw [hlast] at hlast'
            exact Option.some_injective _ hlast'
          have : Edge g c0 c0 := hlac0 ▸ hsucc c0 (List.mem_cons_self _ _)
          exact absurd this (noSelf_edge hwf.noSelf c0)

/-! ### Completeness of the DFS, part 2: every node the search visits is
reachable from the root. -/

theorem search_visited_reach (g : Graph) (root : Nat) :
    ∀ (fuel : Nat) (anc v l : List Nat) (res : Option Cycle) (v' : List Nat),
      g.search fuel anc v l = (res, v') →
      (∀ x ∈ l, Relation.ReflTransGen (Edge g) root x) →
      ∀ x ∈ v', x ∈ v ∨ Relation.ReflTransGen (Edge g) root x := by
  intro fuel
  induction fuel with
  | zero =>
    intro anc v l res v' h _
    cases h
    intro x hx
    exact Or.inl hx
  | succ fuel ih =>
    intro anc v l res v' h hreach
    rcases l with _ | ⟨c0, rest⟩
    · cases h
      intro x hx
      exact Or.inl hx
    · rw [Graph.search] at h
      rcases hpos : posOf? anc c0 with _ | i
      · rw [hpos] at h
        rcases hdeep : g.search fuel (anc ++ [c0]) (setInsert v c0) (g.succsD c0)
          with ⟨r, v2⟩
        rw [hdeep] at h
        have hv1 : ∀ x ∈ setInsert v c0,
            x ∈ v ∨ Relation.ReflTransGen (Edge g) root x := by
          intro x hx
          rcases mem_setInsert.mp hx with rfl | hx
          · exact Or.inr (hreach x (List.mem_cons_self _ _))
          · exact Or.inl hx
        have hdeep_reach : ∀ y ∈ g.succsD c0,
            Relation.ReflTransGen (Edge g) root y := by
          intro y hy
          exact (hreach c0 (List.mem_cons_self _ _)).tail hy
        have hv2 : ∀ x ∈ v2, x ∈ v ∨ Relation.ReflTransGen (Edge g) root x := by
          intro x hx
          rcases ih (anc ++ [c0]) (setInsert v c0) (g.succsD c0) r v2 hdeep
            hdeep_reach x hx with h1 | h1
          · exact hv1 x h1
          · exact Or.inr h1
        rcases r with _ | cyc
        · intro x hx
          rcases ih anc v2 rest res v' h
            (fun y hy => hreach y (List.mem_cons_of_mem _ hy)) x hx with h1 | h1
          · exact hv2 x h1
          · exact Or.inr h1
        · cases h
          exact hv2
      · rw [hpos] at h
        cases h
        intro x hx
        exact Or.inl hx

/-! ### Completeness of the DFS, part 3: from a root whose search reported
no cycle, nothing reachable lies on a cycle. -/

theorem no_cycle_of_search_root_none {g : Graph} (hwf : WF g) {k : Nat}
    {v v' : List Nat}
    (h : g.search g.searchFuel [k] (setInsert v k) (g.succsD k) = (none, v'))
    {x : Nat} (hreach : Relation.ReflTransGen (Edge g) k x) :
    ¬ HasCycleThrough g x := by
  rintro ⟨p, hpne, hpch, hplast⟩
  rcases reach_to_chain hreach with ⟨q, hq, hqlast⟩
  have hw : List.Chain (Edge g) k (q ++ p) :=
    chain_append_chain k q x p hq hqlast hpch
  rcases hqp : q ++ p with _ | ⟨c, t⟩
  · exact hpne (List.append_eq_nil.mp hqp).2
  · rw [hqp] at hw
    rcases List.chain_cons.mp hw with ⟨hkc, hct⟩
    have hnd : ([k] ++ c :: t).Nodup :=
      search_none_walks g hwf g.searchFuel [k] (setInsert v k) (g.succsD k) v' k
        h (searchMeasure_root_lt g k) (List.nodup_singleton k) rfl
        (fun y hy => hy) c hkc t hct
    have hveq : (k :: q) ++ p = [k] ++ c :: t := by
      simp [hqp]
    rw [← hveq] at hnd
    have hxq : x ∈ k :: q := getLast?_mem' hqlast
    have hxp : x ∈ p := getLast?_mem' hplast
    rcases List.nodup_append.mp hnd with ⟨h1, h2, hdisj⟩
    exact hdisj hxq hxp

theorem findCycleLoop_complete (g : Graph) (hwf : WF g) :
    ∀ (ks v : List Nat),
      (∀ x ∈ v, ¬ HasCycleThrough g x) →
      g.findCycleLoop v ks = none →
      ∀ k ∈ ks, ¬ HasCycleThrough g k := by
  intro ks
  induction ks with
  | nil =>
    intro v _ _ k hk
    cases hk
  | cons k0 rest ih =>
    intro v hv h k hk
    rw [Graph.findCycleLoop] at h
    by_cases hkv : k0 ∈ v
    · rw [if_pos hkv] at h
      rcases List.mem_cons.mp hk with rfl | hk
      · exact hv k hkv
      · exact ih v hv h k hk
    · rw [if_neg hkv] at h
      rcases hsearch : g.search g.searchFuel [k0] (setInsert v k0) (g.succsD k0)
        with ⟨r, v'⟩
      rw [hsearch] at h
      rcases r with _ | c
      · have hk0 : ¬ HasCycleThrough g k0 :=
          no_cycle_of_search_root_none hwf hsearch Relation.ReflTransGen.refl
        have hv' : ∀ x ∈ v', ¬ HasCycleThrough g x := by
          intro x hx
          rcases search_visited_reach g k0 g.searchFuel [k0] (setInsert v k0)
            (g.succsD k0) none v' hsearch
            (fun y hy => Relation.ReflTransGen.single hy) x hx with hx1 | hx1
          · rcases mem_setInsert.mp hx1 with rfl | hx1
            · exact hk0
            · exact hv x hx1
          · exact no_cycle_of_search_root_none hwf hsearch hx1
        rcases List.mem_cons.mp hk with rfl | hk
        · exact hk0
        · exact ih v' hv' h k hk
      · cases h

theorem findCycle_complete {g : Graph} (hwf : WF g) (h : g.findCycle = none) :
    ∀ x, ¬ HasCycleThrough g x := by
  intro x hx
  have hxk : x ∈ keysOf g := by
    rcases hx with ⟨p, hpne, hpch, _⟩
    rcases p with _ | ⟨c, t⟩
    · exact absurd rfl hpne
    · exact (List.chain_cons.mp hpch).1.mem_keys
  exact findCycleLoop_complete g hwf (keysOf g) []
    (fun y hy => absurd hy (List.not_mem_nil y)) h x hxk hx

theorem hasCycle_of_checkCycle {g : Graph} {c : Cycle} (h : g.checkCycle c = true) :
    ∃ x, HasCycleThrough g x := by
  rcases hv : c.val with _ | ⟨first, rest⟩
  · have h2 := c.two_le
    rw [hv] at h2
    simp at h2
  · refine ⟨first, rest ++ [first], by simp, ?_, List.getLast?_concat rest⟩
    exact (checkCycle_iff_chain g hv).mp h

theorem hasCycleThrough_cleanup {g : Graph} (hs : KeysSorted g) {x : Nat}
    (h : HasCycleThrough g.cleanup x) : HasCycleThrough g x := by
  rcases h with ⟨p, hpne, hpch, hplast⟩
  exact ⟨p, hpne,
    hpch.imp (fun a b hab => ((Edge_cleanup_iff hs a b).mp hab).2), hplast⟩

/-! ### `simplify` reaches a fixed point -/

theorem simplifyLoop_fixpoint :
    ∀ (fuel : Nat) (g : Graph) (r : Nat), WF g → g.nodes.length < fuel →
      (Graph.simplifyLoop fuel g r).2.findCycle = none := by
  intro fuel
  induction fuel with
  | zero =>
    intro g r _ hlt
    exact absurd hlt (by omega)
  | succ fuel ih =>
    intro g r hwf hlt
    rw [Graph.simplifyLoop]
    rcases hf : g.findCycle with _ | c
    · exact hf
    · have hchk := findCycle_sound g c hf
      rcases collapseCycle_spec hwf hchk with ⟨_, _, hwf', _, hlen⟩
      exact ih (g.collapseCycle c).2 (r + c.val.length) hwf' (by omega)

/-- C5: for every well-formed graph, after `simplify()` returns,
`find_cycle()` on the resulting graph returns none, and a second call to
`simplify()` returns 0 and changes nothing: `simplify` reaches a fixed
point and is idempotent. -/
theorem simplify_fixed_point (g : Graph) (hwf : WF g) :
    (g.simplify).2.findCycle = none ∧
      (g.simplify).2.simplify = (0, (g.simplify).2) := by
  have hWF : WF (Graph.simplifyLoop (g.nodes.length + 1) g 0).2 :=
    simplifyLoop_WF _ g 0 hwf
  have hnone : (Graph.simplifyLoop (g.nodes.length + 1) g 0).2.findCycle = none :=
    simplifyLoop_fixpoint _ g 0 hwf (Nat.lt_succ_self _)
  have hres : (g.simplify).2 =
      (Graph.simplifyLoop (g.nodes.length + 1) g 0).2.cleanup := rfl
  rw [hres]
  have h1 : (Graph.simplifyLoop (g.nodes.length + 1) g 0).2.cleanup.findCycle
      = none := by
    rcases hfc : (Graph.simplifyLoop (g.nodes.length + 1) g 0).2.cleanup.findCycle
      with _ | c
    · rfl
    · exfalso
      rcases hasCycle_of_checkCycle (findCycle_sound _ c hfc) with ⟨x, hx⟩
      exact findCycle_complete hWF hnone x (hasCycleThrough_cleanup hWF.sorted hx)
  refine ⟨h1, ?_⟩
  show ((Graph.simplifyLoop
      ((Graph.simplifyLoop (g.nodes.length + 1) g 0).2.cleanup.nodes.length + 1)
      (Graph.simplifyLoop (g.nodes.length + 1) g 0).2.cleanup 0).1,
    (Graph.simplifyLoop
      ((Graph.simplifyLoop (g.nodes.length + 1) g 0).2.cleanup.nodes.length + 1)
      (Graph.simplifyLoop (g.nodes.length + 1) g 0).2.cleanup 0).2.cleanup) = _
  rw [Graph.simplifyLoop, h1]
  exact Prod.ext rfl (cleanup_idem hWF)

/-- C5 witness instance: the fixed-point property evaluated on the concrete
well-formed 3-cycle graph. -/
theorem simplify_fixed_point_witness :
    WF threeCycleGraph ∧
      ((threeCycleGraph.simplify).2.findCycle = none ∧
        (threeCycleGraph.simplify).2.simplify =
          (0, (threeCycleGraph.simplify).2)) :=
  ⟨by decide, simplify_fixed_point threeCycleGraph (by decide)⟩

end GraphsRs
